import Mathlib

/-!
# vmemcache, `src/visual.c`: terminal visualisation of the cache

A shallow embedding of the three functions of `visual.c`

* `vmemcache_visual_enable` (lines 59-86, the POSIX branch),
* `vmemcache_visual_draw`   (lines 88-115),
* `vmemcache_visual_id`     (lines 117-129),

followed by theorems about them.

Conventions of the embedding.

* `size_t`, `uint64_t` and `unsigned long` are 64 bits wide (LP64), `unsigned int`
  and `int` are 32 bits wide, `unsigned short` is 16 bits wide.  A machine integer
  is a natural number, and every operation that can wrap carries its explicit
  `% U64` or `% U32`.
* The two globals `sx`, `sy` are the fields of `Surface`; a function that writes
  them returns the new `Surface`.
* The answer of the operating system to `isatty(1)` and `ioctl(1, TIOCGWINSZ, &ts)`
  is the input `TermQuery` of `vmemcache_visual_enable`.
* What `vmemcache_visual_draw` does is a `DrawOutcome`: which `return` was taken,
  the values of the locals `a1`, `a2` when they were computed, and the arguments of
  the one `printf` call.  `DrawOutcome.output` is the text written to `stdout`.
* `printf` counts the characters it writes in an `int`: `printf_draw` writes the
  pieces of the format in order and stops once the count passes `INT_MAX`, so a run
  of blanks that fills the count is written without the attribute reset after it.
-/

namespace Vmemcache

/-! ## Machine integers -/

/-- Number of values of a 64-bit unsigned integer (`size_t`, `uint64_t`). -/
abbrev U64 : Nat := 2 ^ 64

/-- Number of values of a 32-bit unsigned integer (`unsigned int`). -/
abbrev U32 : Nat := 2 ^ 32

/-- Number of values of a 16-bit unsigned integer (`unsigned short`). -/
abbrev U16 : Nat := 2 ^ 16

/-- Conversion of a `size_t` to `int`, as in the cast `(int)(a2 - a1)`: the low 32
bits, read in two's complement. -/
def int_of_size_t (n : Nat) : Int :=
  if n % U32 < 2 ^ 31 then ((n % U32 : Nat) : Int) else ((n % U32 : Nat) : Int) - (U32 : Int)

/-- Conversion of the pointer difference `(char *)addr - (char *)base` to `size_t`:
the difference of the two addresses modulo `2 ^ 64`. -/
def ptrdiff_to_size_t (addr base : Nat) : Nat :=
  (((addr : Int) - (base : Int)) % (U64 : Int)).toNat

/-! ## The terminal surface: `sx`, `sy` and `vmemcache_visual_enable` -/

/-- The globals of line 50, `static unsigned int sx = 0, sy = 0; /* terminal size */`. -/
structure Surface where
  /-- Number of columns; `0` means that nothing is drawn. -/
  sx : Nat
  /-- Number of rows. -/
  sy : Nat
deriving DecidableEq, Repr

/-- The initial value of the globals, `sx = 0, sy = 0`. -/
def Surface.initial : Surface := ⟨0, 0⟩

/-- What the operating system answers to `vmemcache_visual_enable` (POSIX branch):
`isatty(1)` is false, or `ioctl(1, TIOCGWINSZ, &ts)` returns nonzero, or the ioctl
succeeds and fills in `ts.ws_col` and `ts.ws_row`. -/
inductive TermQuery where
  | notTerminal
  | queryFailed
  | reported (ws_col ws_row : Nat)
deriving DecidableEq, Repr

/-- Lines 59-86, POSIX branch.  The result is the returned `size_t` and the new
value of the globals.

```
if (!isatty(1)) return 0;
if (ioctl(1, TIOCGWINSZ, &ts) || ts.ws_row <= 0 || ts.ws_col <= 0) return 0;
sx = ts.ws_col; sy = ts.ws_row;
return sx * sy;
```
The product `sx * sy` is an `unsigned int` product, hence `% U32`. -/
def vmemcache_visual_enable (s : Surface) : TermQuery → Nat × Surface
  | .notTerminal => (0, s)
  | .queryFailed => (0, s)
  | .reported ws_col ws_row =>
    if ws_row ≤ 0 ∨ ws_col ≤ 0 then (0, s)
    else
      let s1 : Surface := ⟨ws_col % U32, ws_row % U32⟩
      (s1.sx * s1.sy % U32, s1)

/-! ## The rasterizer: `vmemcache_visual_draw` -/

/-- Modelled from the spec: the declaration of `VMEMcache` is in a header that is not
part of the sources at hand; `vmemcache_visual_draw` reads the two fields `c->addr`
and `c->size`, the CacheArena `{baseAddress, sizeInBytes}` of the spec. -/
structure VMEMcache where
  /-- Base address of the arena. -/
  addr : Nat
  /-- Size of the arena in bytes (`size_t`). -/
  size : Nat
deriving DecidableEq, Repr

/-- The four variable arguments of the `printf` call of lines 112-113:
`a1 / sx + 1`, `a1 % sx + 1`, `id`, `(int)(a2 - a1)`. -/
structure PrintfArgs where
  /-- First `%lu`: the 1-based row. -/
  row : Nat
  /-- Second `%lu`: the 1-based column. -/
  col : Nat
  /-- Third `%lu`: the colour index. -/
  id : Nat
  /-- The `int` consumed by the `*` of `%*s`: the field width. -/
  width : Int
deriving DecidableEq, Repr

/-- What one call of `vmemcache_visual_draw` did. -/
inductive DrawOutcome where
  /-- The `return` of line 92: `sx == 0`. -/
  | disabled
  /-- The division of line 95 with `c->size == 0`: no defined result. -/
  | divByZero
  /-- The `return` of line 98: `a2 <= a1`. -/
  | dropped (a1 a2 : Nat)
  /-- The `printf` and `fflush` of lines 112-114 were reached. -/
  | printed (a1 a2 : Nat) (args : PrintfArgs)
deriving DecidableEq, Repr

/-- Lines 88-115.

```
if (!sx) return;
size_t offset = (size_t)((char *)addr - (char *)c->addr);
size_t a1 = offset * sx * sy / c->size;
size_t a2 = (offset + len) * sx * sy / c->size;
if (a2 <= a1) return;
if (id) id = 17 + id % 239;
printf(..., a1 / sx + 1, a1 % sx + 1, id, (int)(a2 - a1), "");
```
All of `offset * sx * sy` is `size_t` arithmetic, evaluated left to right. -/
def vmemcache_visual_draw (s : Surface) (c : VMEMcache) (addr len id : Nat) : DrawOutcome :=
  if s.sx = 0 then .disabled
  else
    let offset := ptrdiff_to_size_t addr c.addr
    if c.size = 0 then .divByZero
    else
      let a1 := offset * s.sx % U64 * s.sy % U64 / c.size
      let a2 := (offset + len) % U64 * s.sx % U64 * s.sy % U64 / c.size
      if a2 ≤ a1 then .dropped a1 a2
      else
        let id1 := if id ≠ 0 then (17 + id % 239) % U64 else id
        .printed a1 a2
          ⟨(a1 / s.sx + 1) % U64, (a1 % s.sx + 1) % U64, id1, int_of_size_t ((a2 - a1) % U64)⟩

/-- The locals `a1`, `a2` of a call, when the call got as far as computing them. -/
def DrawOutcome.bounds : DrawOutcome → Option (Nat × Nat)
  | .dropped a1 a2 => some (a1, a2)
  | .printed a1 a2 _ => some (a1, a2)
  | _ => none

/-- The escape character, written `\e` in the format string. -/
def ESC : Char := Char.ofNat 27

/-- The conversion `%lu`: decimal digits, no padding. -/
def printf_lu (n : Nat) : List Char := Nat.toDigits 10 n

/-- Largest value of an `int`, the type of the field width and of the value that
`printf` returns. -/
abbrev INT_MAX : Nat := 2 ^ 31 - 1

/-- Number of blanks that the conversion `%*s` writes for the empty string `""`: the
field is filled with blanks up to the width; a negative width asks for left
justification with its absolute value as the width, which for the empty string is
the same run of blanks.  The width `INT_MIN` has no absolute value in an `int`; the
C library writes no blank for it. -/
def printf_pad_count (width : Int) : Nat :=
  if width = -(2 ^ 31 : Int) then 0 else width.natAbs

/-- The blanks written by the conversion `%*s` applied to the empty string `""`. -/
def printf_pad (width : Int) : List Char := List.replicate (printf_pad_count width) ' '

/-- The part `"\e[%lu;%luf\e[48;5;%lum"` of the format of line 112: cursor position
and 256-colour background. -/
def printf_header (p : PrintfArgs) : List Char :=
  [ESC, '['] ++ printf_lu p.row ++ [';'] ++ printf_lu p.col ++ ['f']
    ++ [ESC, '[', '4', '8', ';', '5', ';'] ++ printf_lu p.id ++ ['m']

/-- The part `"\e[0m"` that ends the format of line 112: attribute reset. -/
def printf_reset : List Char := [ESC, '[', '0', 'm']

/-- The characters that `printf` writes for the format
`"\e[%lu;%luf\e[48;5;%lum%*s\e[0m"` of line 112: cursor position, 256-colour
background, the run of blanks, attribute reset.  `printf` returns the number of
characters as an `int`: the C library writes the pieces of the format in order and
adds each to that count, and when the count passes `INT_MAX` it stops with
`EOVERFLOW`.  The header has at most 55 characters; when header and blanks together
pass `INT_MAX` the blanks are written and the attribute reset is not. -/
def printf_draw (p : PrintfArgs) : List Char :=
  if INT_MAX < (printf_header p).length + printf_pad_count p.width then
    printf_header p ++ printf_pad p.width
  else
    printf_header p ++ printf_pad p.width ++ printf_reset

/-- The characters a call wrote to `stdout`. -/
def DrawOutcome.output : DrawOutcome → List Char
  | .printed _ _ p => printf_draw p
  | _ => []

/-- The cells a call painted, as flattened cell indices (cell `k` is row `k / sx`,
column `k % sx`): the cursor is put on cell `a1` and one cell is filled for each
blank written. -/
def DrawOutcome.cells : DrawOutcome → List Nat
  | .printed a1 _ p => List.range' a1 (printf_pad_count p.width)
  | _ => []

/-! ## The identifier hasher: `vmemcache_visual_id` -/

/-- Modelled from the spec: the declaration of `struct cache_entry` is in a header
that is not part of the sources at hand; `vmemcache_visual_id` reads `e->key.ksize`
and the bytes `e->key.key[i]`, the "entry key bytes" of the spec.  Each element of
`key` is the value of one `char` of the key. -/
structure cache_entry where
  /-- Length of the key, `e->key.ksize`. -/
  ksize : Nat
  /-- Contents of the key, `e->key.key`. -/
  key : List Nat
deriving DecidableEq, Repr

/-- The loop of lines 123-126, started at index `i` with accumulator `id`.

```
for (size_t i = 0; i < ksize; i++) {
	id ^= (unsigned char)e->key.key[i];
	id *= 0x00000100000001b3;
}
```
The cast to `unsigned char` is `% 256`; the `uint64_t` product is `% U64`. -/
def vmemcache_visual_id_loop (e : cache_entry) (i id : Nat) : Nat :=
  if i < e.ksize then
    let id1 := id ^^^ (e.key.getD i 0 % 256)
    let id2 := id1 * 0x00000100000001b3 % U64
    vmemcache_visual_id_loop e (i + 1) id2
  else id
termination_by e.ksize - i

/-- Lines 117-129: `uint64_t id = 0xcbf29ce484222325;` then the loop, then
`return id;`. -/
def vmemcache_visual_id (e : cache_entry) : Nat :=
  vmemcache_visual_id_loop e 0 0xcbf29ce484222325

/-- One step of FNV-1a as the specification words it:
`id = (id xor byte) * 0x00000100000001b3` with 64-bit wraparound. -/
def fnv1a_step (id byte : Nat) : Nat :=
  ((id ^^^ byte) * 0x00000100000001b3) % 2 ^ 64

/-- FNV-1a as the specification words it: start with the offset basis
`0xcbf29ce484222325`, update with each byte in order, return the last value. -/
def fnv1a_reference (key : List Nat) : Nat :=
  key.foldl fnv1a_step 0xcbf29ce484222325

/-- The terminal queries on which `vmemcache_visual_enable` gives up: the output is
not a terminal, the geometry query failed, or a reported dimension is zero. -/
def TermQuery.unavailable : TermQuery → Bool
  | .notTerminal => true
  | .queryFailed => true
  | .reported ws_col ws_row => ws_col == 0 || ws_row == 0

/-- The fields `ws_col`, `ws_row` of `struct winsize` are `unsigned short`: a reported
geometry consists of two 16-bit values. -/
def TermQuery.wellFormed : TermQuery → Bool
  | .reported ws_col ws_row => decide (ws_col < U16) && decide (ws_row < U16)
  | _ => true

/-- The globals after a sequence of calls of `vmemcache_visual_enable`, one call for
each terminal query of the list, in order. -/
def enable_calls (s : Surface) (qs : List TermQuery) : Surface :=
  qs.foldl (fun t q => (vmemcache_visual_enable t q).2) s

/-! ## Theorems -/

/-- The loop of `vmemcache_visual_id` from index `i` on is the fold of the FNV-1a
step over the bytes from index `i` on. -/
theorem vmemcache_visual_id_loop_eq (e : cache_entry) (hk : e.ksize = e.key.length)
    (hb : ∀ b ∈ e.key, b < 256) :
    ∀ (n i id : Nat), n = e.ksize - i →
      vmemcache_visual_id_loop e i id = (e.key.drop i).foldl fnv1a_step id := by
  intro n
  induction n with
  | zero =>
    intro i id hn
    have hi : ¬ i < e.ksize := by omega
    rw [vmemcache_visual_id_loop, if_neg hi]
    have : e.key.drop i = [] := List.drop_of_length_le (by omega)
    rw [this]; rfl
  | succ n ih =>
    intro i id hn
    have hi : i < e.ksize := by omega
    have hlen : i < e.key.length := by omega
    rw [vmemcache_visual_id_loop, if_pos hi]
    simp only []
    rw [ih (i + 1) _ (by omega)]
    have hd : e.key.drop i = e.key[i] :: e.key.drop (i + 1) := List.drop_eq_getElem_cons hlen
    rw [hd, List.foldl_cons]
    have hget : e.key.getD i 0 = e.key[i] := by
      simp [List.getD_eq_getElem?_getD, List.getElem?_eq_getElem hlen]
    have hlt : e.key[i] < 256 := hb _ (List.getElem_mem hlen)
    rw [hget, Nat.mod_eq_of_lt hlt]
    rfl

/-- C1. For every key (a sequence of bytes, each below 256, with `ksize` its
length) `vmemcache_visual_id` is the FNV-1a reference: from `0xcbf29ce484222325`,
each byte in order updates `id` to `((id xor byte) * 0x00000100000001b3) mod 2^64`;
and the hash of the empty key is `0xcbf29ce484222325`. -/
theorem vmemcache_visual_id_eq_fnv1a (e : cache_entry) (hk : e.ksize = e.key.length)
    (hb : ∀ b ∈ e.key, b < 256) :
    vmemcache_visual_id e = fnv1a_reference e.key
      ∧ vmemcache_visual_id ⟨0, []⟩ = 0xcbf29ce484222325 := by
  constructor
  · unfold vmemcache_visual_id fnv1a_reference
    rw [vmemcache_visual_id_loop_eq e hk hb (e.ksize - 0) 0 _ rfl, List.drop_zero]
  · unfold vmemcache_visual_id
    rw [vmemcache_visual_id_loop, if_neg (by decide)]

/-- Witness of C1: the key `"a"` (one byte, 97) hashes to `0xaf63dc4c8601ec8c`. -/
theorem vmemcache_visual_id_eq_fnv1a_witness :
    vmemcache_visual_id ⟨1, [97]⟩ = 0xaf63dc4c8601ec8c :=
  (vmemcache_visual_id_eq_fnv1a ⟨1, [97]⟩ rfl (by decide)).1.trans (by decide)

/-! ### The rasterizer -/

/-- The pointer difference of `base + offset` and `base` is `offset`, reduced to 64
bits. -/
theorem ptrdiff_to_size_t_add (base offset : Nat) :
    ptrdiff_to_size_t (base + offset) base = offset % U64 := by
  unfold ptrdiff_to_size_t
  have h : ((base + offset : Nat) : Int) - (base : Int) = (offset : Int) := by
    push_cast; ring
  rw [h]
  have h2 : (offset : Int) % ((U64 : Nat) : Int) = ((offset % U64 : Nat) : Int) := by
    exact (Int.natCast_mod offset U64).symm
  rw [h2, Int.toNat_natCast]

/-- The `size_t` product `x * sx * sy` is the exact product when that fits in 64
bits. -/
theorem size_t_mul_exact (x sx sy : Nat) (h : x * sx * sy < U64) :
    x % U64 * sx % U64 * sy % U64 = x * (sx * sy) := by
  rcases Nat.eq_zero_or_pos sy with hy | hy
  · subst hy; simp
  rcases Nat.eq_zero_or_pos sx with hx | hx
  · subst hx; simp
  have h1 : x * sx ≤ x * sx * sy := Nat.le_mul_of_pos_right _ hy
  have h2 : x ≤ x * sx := Nat.le_mul_of_pos_right _ hx
  rw [Nat.mod_eq_of_lt (lt_of_le_of_lt (le_trans h2 h1) h),
    Nat.mod_eq_of_lt (lt_of_le_of_lt h1 h), Nat.mod_eq_of_lt h, Nat.mul_assoc]

/-- The colour folding of lines 108-109 never wraps. -/
theorem draw_color_eq (id : Nat) :
    (if id ≠ 0 then (17 + id % 239) % U64 else id) = if id = 0 then 0 else 17 + id % 239 := by
  by_cases h : id = 0
  · simp [h]
  · have : id % 239 < 239 := Nat.mod_lt _ (by decide)
    have h2 : 17 + id % 239 < U64 := by
      have : (256 : Nat) < U64 := by decide
      omega
    simp [h, Nat.mod_eq_of_lt h2]

/-- Unfolding of `vmemcache_visual_draw` on an enabled surface and a nonempty arena. -/
theorem vmemcache_visual_draw_enabled (s : Surface) (c : VMEMcache) (addr len id : Nat)
    (hsx : s.sx ≠ 0) (hsize : c.size ≠ 0) :
    vmemcache_visual_draw s c addr len id =
      if (ptrdiff_to_size_t addr c.addr + len) % U64 * s.sx % U64 * s.sy % U64 / c.size
          ≤ ptrdiff_to_size_t addr c.addr * s.sx % U64 * s.sy % U64 / c.size then
        .dropped (ptrdiff_to_size_t addr c.addr * s.sx % U64 * s.sy % U64 / c.size)
          ((ptrdiff_to_size_t addr c.addr + len) % U64 * s.sx % U64 * s.sy % U64 / c.size)
      else
        .printed (ptrdiff_to_size_t addr c.addr * s.sx % U64 * s.sy % U64 / c.size)
          ((ptrdiff_to_size_t addr c.addr + len) % U64 * s.sx % U64 * s.sy % U64 / c.size)
          ⟨(ptrdiff_to_size_t addr c.addr * s.sx % U64 * s.sy % U64 / c.size / s.sx + 1) % U64,
           (ptrdiff_to_size_t addr c.addr * s.sx % U64 * s.sy % U64 / c.size % s.sx + 1) % U64,
           if id = 0 then 0 else 17 + id % 239,
           int_of_size_t
             (((ptrdiff_to_size_t addr c.addr + len) % U64 * s.sx % U64 * s.sy % U64 / c.size
               - ptrdiff_to_size_t addr c.addr * s.sx % U64 * s.sy % U64 / c.size) % U64)⟩ := by
  unfold vmemcache_visual_draw
  rw [if_neg hsx, if_neg hsize]
  simp only [draw_color_eq]

/-- When the products fit in 64 bits, `vmemcache_visual_draw` at byte offset
`offset` of the arena works with the exact cell bounds
`a1 = offset * (sx * sy) / S` and `a2 = (offset + len) * (sx * sy) / S`. -/
theorem vmemcache_visual_draw_exact (s : Surface) (base S offset len id : Nat)
    (hsx : s.sx ≠ 0) (hS : 0 < S) (hfit : (offset + len) * s.sx * s.sy < U64) :
    vmemcache_visual_draw s ⟨base, S⟩ (base + offset) len id =
      if (offset + len) * (s.sx * s.sy) / S ≤ offset * (s.sx * s.sy) / S then
        .dropped (offset * (s.sx * s.sy) / S) ((offset + len) * (s.sx * s.sy) / S)
      else
        .printed (offset * (s.sx * s.sy) / S) ((offset + len) * (s.sx * s.sy) / S)
          ⟨offset * (s.sx * s.sy) / S / s.sx + 1, offset * (s.sx * s.sy) / S % s.sx + 1,
           if id = 0 then 0 else 17 + id % 239,
           int_of_size_t ((offset + len) * (s.sx * s.sy) / S - offset * (s.sx * s.sy) / S)⟩ := by
  rw [vmemcache_visual_draw_enabled s ⟨base, S⟩ (base + offset) len id hsx (by simpa using hS.ne')]
  simp only [ptrdiff_to_size_t_add]
  have hle : offset * s.sx * s.sy ≤ (offset + len) * s.sx * s.sy :=
    Nat.mul_le_mul_right _ (Nat.mul_le_mul_right _ (Nat.le_add_right _ _))
  have e1 : offset % U64 * s.sx % U64 * s.sy % U64 = offset * (s.sx * s.sy) :=
    size_t_mul_exact offset s.sx s.sy (lt_of_le_of_lt hle hfit)
  have e2 : (offset % U64 + len) % U64 * s.sx % U64 * s.sy % U64
      = (offset + len) * (s.sx * s.sy) := by
    rw [Nat.mod_add_mod]
    exact size_t_mul_exact (offset + len) s.sx s.sy hfit
  rw [e1, e2]
  have hfit2 : (offset + len) * (s.sx * s.sy) < U64 := by rw [← Nat.mul_assoc]; exact hfit
  generalize offset * (s.sx * s.sy) / S = a1
  have ha2 : (offset + len) * (s.sx * s.sy) / S < U64 :=
    lt_of_le_of_lt (Nat.div_le_self _ _) hfit2
  by_cases hd : (offset + len) * (s.sx * s.sy) / S ≤ a1
  · rw [if_pos hd, if_pos hd]
  · rw [if_neg hd, if_neg hd]
    have hpos : 0 < (offset + len) * (s.sx * s.sy) := by
      rcases Nat.eq_zero_or_pos ((offset + len) * (s.sx * s.sy)) with h0 | h0
      · rw [h0, Nat.zero_div] at hd
        exact absurd (Nat.zero_le a1) hd
      · exact h0
    have hsxlt : s.sx < U64 := by
      have hx : 0 < offset + len := Nat.pos_of_mul_pos_right hpos
      have hy : 0 < s.sy := Nat.pos_of_mul_pos_left (Nat.pos_of_mul_pos_left hpos)
      have h1 : s.sx ≤ s.sx * s.sy := Nat.le_mul_of_pos_right _ hy
      have h2 : s.sx * s.sy ≤ (offset + len) * (s.sx * s.sy) := Nat.le_mul_of_pos_left _ hx
      exact lt_of_le_of_lt (le_trans h1 h2) hfit2
    generalize (offset + len) * (s.sx * s.sy) / S = a2 at ha2 hd
    have hrow : a1 / s.sx ≤ a1 := Nat.div_le_self _ _
    have hcol : a1 % s.sx < s.sx := Nat.mod_lt _ (Nat.pos_of_ne_zero hsx)
    have h1 : a1 / s.sx + 1 < U64 := lt_of_le_of_lt (by omega) ha2
    have h2 : a1 % s.sx + 1 < U64 := lt_of_le_of_lt (by omega) hsxlt
    have h3 : a2 - a1 < U64 := lt_of_le_of_lt (Nat.sub_le _ _) ha2
    rw [Nat.mod_eq_of_lt h1, Nat.mod_eq_of_lt h2, Nat.mod_eq_of_lt h3]

/-- A width below `2 ^ 31` survives the cast to `int`. -/
theorem int_of_size_t_small (n : Nat) (h : n < 2 ^ 31) : int_of_size_t n = (n : Int) := by
  unfold int_of_size_t
  have h1 : n % U32 = n := Nat.mod_eq_of_lt (lt_trans h (by decide))
  rw [h1, if_pos h]

/-- The `printf` of line 112 always writes something. -/
theorem printf_draw_ne_nil (p : PrintfArgs) : printf_draw p ≠ [] := by
  unfold printf_draw
  split <;> simp [printf_header]

/-- A width that is a natural number below `2 ^ 31` asks for that many blanks. -/
theorem printf_pad_count_natCast (n : Nat) : printf_pad_count (n : Int) = n := by
  unfold printf_pad_count
  rw [if_neg (by omega), Int.natAbs_ofNat]

/-- When header, blanks and reset together have at most `INT_MAX` characters, the
whole text of the format is written. -/
theorem printf_draw_complete (p : PrintfArgs)
    (h : (printf_header p).length + printf_pad_count p.width + 4 ≤ INT_MAX) :
    printf_draw p = printf_header p ++ printf_pad p.width ++ printf_reset := by
  unfold printf_draw
  rw [if_neg (by omega)]

/-- Header and blanks are written in every case. -/
theorem printf_draw_header_pad (p : PrintfArgs) :
    List.IsPrefix (printf_header p ++ printf_pad p.width) (printf_draw p) := by
  unfold printf_draw
  split
  · exact List.prefix_refl _
  · exact List.prefix_append _ _

/-- The header has 12 characters besides the digits of row, column and colour. -/
theorem printf_header_length (p : PrintfArgs) :
    (printf_header p).length
      = (printf_lu p.row).length + (printf_lu p.col).length + (printf_lu p.id).length + 12 := by
  simp only [printf_header, List.length_append, List.length_cons, List.length_nil]
  omega

/-- A colour index (at most 255) has at most three decimal digits. -/
theorem printf_lu_length_color (n : Nat) (h : n ≤ 255) : (printf_lu n).length ≤ 3 := by
  unfold printf_lu Nat.toDigits
  exact Nat.toDigitsCore_length 10 (by decide) (n + 1) n 3 (by omega) (by decide)

/-- C2. Whenever `vmemcache_visual_draw` reaches its `printf`, the colour index it
passes is `17 + h mod 239`, a value of `[17, 255]`, for a nonzero identifier `h`,
and is `0`, a value outside `[17, 255]`, for the identifier `0`. -/
theorem vmemcache_visual_draw_color (s : Surface) (c : VMEMcache) (addr len h a1 a2 : Nat)
    (p : PrintfArgs) (hp : vmemcache_visual_draw s c addr len h = .printed a1 a2 p) :
    (h ≠ 0 → p.id = 17 + h % 239 ∧ 17 ≤ p.id ∧ p.id ≤ 255)
      ∧ (h = 0 → p.id = 0 ∧ ¬ (17 ≤ p.id ∧ p.id ≤ 255)) := by
  by_cases hsx : s.sx = 0
  · simp [vmemcache_visual_draw, hsx] at hp
  by_cases hsize : c.size = 0
  · simp [vmemcache_visual_draw, hsx, hsize] at hp
  rw [vmemcache_visual_draw_enabled s c addr len h hsx hsize] at hp
  split at hp
  · exact DrawOutcome.noConfusion hp
  · injection hp with _ _ hargs
    subst hargs
    have hm : h % 239 < 239 := Nat.mod_lt _ (by decide)
    constructor
    · intro hne
      simp only [if_neg hne]
      refine ⟨trivial, ?_, ?_⟩ <;> omega
    · intro h0
      simp [h0]

/-- Witness of C2: on an 80 x 24 terminal a whole-arena draw with identifier 1000
passes the colour `17 + 1000 mod 239 = 61`. -/
theorem vmemcache_visual_draw_color_witness :
    vmemcache_visual_draw ⟨80, 24⟩ ⟨4096, 1920⟩ 4096 1920 1000 = .printed 0 1920 ⟨1, 1, 61, 1920⟩
      ∧ (61 : Nat) = 17 + 1000 % 239 ∧ 17 ≤ (61 : Nat) ∧ (61 : Nat) ≤ 255 :=
  ⟨by decide,
    (vmemcache_visual_draw_color ⟨80, 24⟩ ⟨4096, 1920⟩ 4096 1920 1000 0 1920 ⟨1, 1, 61, 1920⟩
      (by decide)).1 (by decide)⟩

/-- C3. With `sx == 0` the function `vmemcache_visual_draw` takes the `return` of
line 92 for every `sy`, arena (an arena of size 0 included), address, length and
identifier, and writes nothing. -/
theorem vmemcache_visual_draw_disabled (sy : Nat) (c : VMEMcache) (addr len id : Nat) :
    vmemcache_visual_draw ⟨0, sy⟩ c addr len id = .disabled
      ∧ (vmemcache_visual_draw ⟨0, sy⟩ c addr len id).output = []
      ∧ vmemcache_visual_draw ⟨0, sy⟩ ⟨c.addr, 0⟩ addr len id = .disabled := by
  refine ⟨?_, ?_, ?_⟩ <;> simp [vmemcache_visual_draw, DrawOutcome.output]

/-! ### The terminal surface -/

/-- Counterexample to C4 as stated: after a successful probe of an 80 x 24
terminal, a call of `vmemcache_visual_enable` that finds no terminal returns 0 but
keeps `sx = 80`, `sy = 24`, and the next whole-arena draw still writes to the
terminal. -/
theorem vmemcache_visual_enable_failure_keeps_geometry :
    TermQuery.unavailable .notTerminal = true
      ∧ vmemcache_visual_enable ⟨80, 24⟩ .notTerminal = (0, ⟨80, 24⟩)
      ∧ (vmemcache_visual_enable ⟨80, 24⟩ .notTerminal).2.sx ≠ 0
      ∧ vmemcache_visual_draw (vmemcache_visual_enable ⟨80, 24⟩ .notTerminal).2
          ⟨4096, 1920⟩ 4096 1920 5 = .printed 0 1920 ⟨1, 1, 22, 1920⟩
      ∧ (vmemcache_visual_draw (vmemcache_visual_enable ⟨80, 24⟩ .notTerminal).2
          ⟨4096, 1920⟩ 4096 1920 5).output ≠ [] := by
  refine ⟨rfl, rfl, by decide, by decide, ?_⟩
  have h : vmemcache_visual_draw (vmemcache_visual_enable ⟨80, 24⟩ .notTerminal).2
      ⟨4096, 1920⟩ 4096 1920 5 = .printed 0 1920 ⟨1, 1, 22, 1920⟩ := by decide
  rw [h]
  exact printf_draw_ne_nil _

/-- C4, amended. For every prior surface state, when `vmemcache_visual_enable` sees a
non-terminal, a failed query, or a zero row or column count, it returns 0 and
leaves the stored geometry as it was; so a surface that was disabled before the
call is still disabled after it, and every subsequent `vmemcache_visual_draw`
writes nothing. -/
theorem vmemcache_visual_enable_unavailable (s : Surface) (q : TermQuery)
    (hq : q.unavailable = true) :
    vmemcache_visual_enable s q = (0, s)
      ∧ (s.sx = 0 → (vmemcache_visual_enable s q).2.sx = 0
          ∧ ∀ (c : VMEMcache) (addr len id : Nat),
              (vmemcache_visual_draw (vmemcache_visual_enable s q).2 c addr len id).output
                = []) := by
  have he : vmemcache_visual_enable s q = (0, s) := by
    cases q with
    | notTerminal => rfl
    | queryFailed => rfl
    | reported ws_col ws_row =>
      have h : ws_row ≤ 0 ∨ ws_col ≤ 0 := by
        simp only [TermQuery.unavailable, Bool.or_eq_true, beq_iff_eq] at hq
        omega
      simp only [vmemcache_visual_enable, if_pos h]
  refine ⟨he, ?_⟩
  intro h0
  rw [he]
  refine ⟨h0, ?_⟩
  intro c addr len id
  simp [vmemcache_visual_draw, h0, DrawOutcome.output]

/-- Witness of C4, amended: the initial surface and a terminal that reports 0 x 0. -/
theorem vmemcache_visual_enable_unavailable_witness :
    (TermQuery.reported 0 0).unavailable = true
      ∧ vmemcache_visual_enable Surface.initial (.reported 0 0) = (0, Surface.initial)
      ∧ (vmemcache_visual_draw (vmemcache_visual_enable Surface.initial (.reported 0 0)).2
          ⟨4096, 1920⟩ 4096 1920 5).output = [] :=
  ⟨rfl, (vmemcache_visual_enable_unavailable Surface.initial (.reported 0 0) rfl).1,
    ((vmemcache_visual_enable_unavailable Surface.initial (.reported 0 0) rfl).2 rfl).2
      ⟨4096, 1920⟩ 4096 1920 5⟩

/-- A terminal that reports positive 16-bit dimensions: the geometry is stored as
reported and the `unsigned int` product does not wrap, whatever was stored before. -/
theorem vmemcache_visual_enable_reported_eq (s : Surface) (ws_col ws_row : Nat)
    (hc : 0 < ws_col) (hr : 0 < ws_row) (hc16 : ws_col < U16) (hr16 : ws_row < U16) :
    vmemcache_visual_enable s (.reported ws_col ws_row)
      = (ws_col * ws_row, ⟨ws_col, ws_row⟩) := by
  have h : ¬ (ws_row ≤ 0 ∨ ws_col ≤ 0) := by omega
  have h1 : ws_col % U32 = ws_col := Nat.mod_eq_of_lt (lt_trans hc16 (by decide))
  have h2 : ws_row % U32 = ws_row := Nat.mod_eq_of_lt (lt_trans hr16 (by decide))
  have h3 : ws_col * ws_row < U32 := by
    have : ws_col * ws_row < U16 * U16 :=
      Nat.mul_lt_mul_of_lt_of_le hc16 hr16.le (by decide)
    exact lt_of_lt_of_le this (by decide)
  simp only [vmemcache_visual_enable, if_neg h, h1, h2, Nat.mod_eq_of_lt h3]

/-- C5. For every prior surface state and every reported geometry of 16-bit values
with `columns > 0` and `rows > 0`, `vmemcache_visual_enable` stores exactly that
geometry and returns exactly `columns * rows`; a second call that sees the same
geometry returns the same value and leaves the same state. -/
theorem vmemcache_visual_enable_reported (s : Surface) (ws_col ws_row : Nat)
    (hc : 0 < ws_col) (hr : 0 < ws_row) (hc16 : ws_col < U16) (hr16 : ws_row < U16) :
    vmemcache_visual_enable s (.reported ws_col ws_row) = (ws_col * ws_row, ⟨ws_col, ws_row⟩)
      ∧ vmemcache_visual_enable (vmemcache_visual_enable s (.reported ws_col ws_row)).2
          (.reported ws_col ws_row) = vmemcache_visual_enable s (.reported ws_col ws_row) := by
  have key := fun t => vmemcache_visual_enable_reported_eq t ws_col ws_row hc hr hc16 hr16
  exact ⟨key s, by rw [key s, key _]⟩

/-- Witness of C5: a disabled surface and then an 80 x 24 terminal. -/
theorem vmemcache_visual_enable_reported_witness :
    vmemcache_visual_enable ⟨0, 0⟩ (.reported 80 24) = (80 * 24, ⟨80, 24⟩)
      ∧ vmemcache_visual_enable (vmemcache_visual_enable ⟨0, 0⟩ (.reported 80 24)).2
          (.reported 80 24) = vmemcache_visual_enable ⟨0, 0⟩ (.reported 80 24) :=
  vmemcache_visual_enable_reported ⟨0, 0⟩ 80 24 (by decide) (by decide) (by decide) (by decide)

/-! ### The proportional mapping -/

/-- Counterexample to C6 as stated: on an 80 x 24 terminal, in an arena of `2 ^ 63`
bytes, the request at offset `2 ^ 62` of length `2 ^ 62` is inside the arena; the
64-bit products wrap to 0, and the computed bounds are `a1 = 0`, `a2 = 0`, while
the exact quotients are 960 and 1920. -/
theorem vmemcache_visual_draw_bounds_wrap :
    (0 : Nat) < 2 ^ 63 ∧ 2 ^ 62 + 2 ^ 62 ≤ 2 ^ 63
      ∧ (vmemcache_visual_draw ⟨80, 24⟩ ⟨4096, 2 ^ 63⟩ (4096 + 2 ^ 62) (2 ^ 62) 5).bounds
          = some (0, 0)
      ∧ 2 ^ 62 * (80 * 24) / 2 ^ 63 = 960
      ∧ (2 ^ 62 + 2 ^ 62) * (80 * 24) / 2 ^ 63 = 1920 := by
  decide

/-- C6, amended. For every enabled surface, every arena size `S > 0` and every draw
request with `offset + len ≤ S` whose product `(offset + len) * sx * sy` fits in 64
bits, the cell bounds computed by `vmemcache_visual_draw` are
`a1 = offset * total / S` and `a2 = (offset + len) * total / S` with
`total = sx * sy`, in exact natural-number arithmetic. -/
theorem vmemcache_visual_draw_bounds (s : Surface) (base S offset len id : Nat)
    (hsx : s.sx ≠ 0) (hS : 0 < S) (_hin : offset + len ≤ S)
    (hfit : (offset + len) * s.sx * s.sy < U64) :
    (vmemcache_visual_draw s ⟨base, S⟩ (base + offset) len id).bounds
      = some (offset * (s.sx * s.sy) / S, (offset + len) * (s.sx * s.sy) / S) := by
  rw [vmemcache_visual_draw_exact s base S offset len id hsx hS hfit]
  split <;> rfl

/-- Witness of C6, amended: 80 x 24 cells, an arena of 4000 bytes, the request at
offset 1000 of length 500 has the bounds 480 and 720. -/
theorem vmemcache_visual_draw_bounds_witness :
    (vmemcache_visual_draw ⟨80, 24⟩ ⟨4096, 4000⟩ (4096 + 1000) 500 5).bounds
      = some (1000 * (80 * 24) / 4000, (1000 + 500) * (80 * 24) / 4000) :=
  vmemcache_visual_draw_bounds ⟨80, 24⟩ 4096 4000 1000 500 5 (by decide) (by decide)
    (by decide) (by decide)

/-- Counterexample to C7 as stated: on an 80 x 24 terminal the whole-arena draw of
an arena of `2 ^ 63` bytes computes `a2 = 0` (the product `2 ^ 63 * 80` wraps to 0)
and writes nothing. -/
theorem vmemcache_visual_draw_whole_arena_wrap :
    (0 : Nat) < 2 ^ 63
      ∧ vmemcache_visual_draw ⟨80, 24⟩ ⟨4096, 2 ^ 63⟩ 4096 (2 ^ 63) 5 = .dropped 0 0
      ∧ (vmemcache_visual_draw ⟨80, 24⟩ ⟨4096, 2 ^ 63⟩ 4096 (2 ^ 63) 5).output = [] := by
  decide

/-- C7, amended. For every enabled surface `(sx, sy)` with `sx * sy + 21 < 2 ^ 31`
(the run of blanks and the at most 21 other characters of the escape sequence fit
the `int` that `printf` counts in) and every arena size `S > 0` with `S * sx * sy`
below `2 ^ 64`, `vmemcache_visual_draw` with offset 0 and length `S` computes
`a1 = 0` and `a2 = sx * sy` and writes one run of `sx * sy` blanks that starts at
row 1, column 1, followed by the attribute reset. -/
theorem vmemcache_visual_draw_whole_arena (s : Surface) (base S id : Nat)
    (hsx : 0 < s.sx) (hsy : 0 < s.sy) (hS : 0 < S)
    (hfit : S * s.sx * s.sy < U64) (hroom : s.sx * s.sy + 21 < 2 ^ 31) :
    vmemcache_visual_draw s ⟨base, S⟩ base S id
        = .printed 0 (s.sx * s.sy)
            ⟨1, 1, if id = 0 then 0 else 17 + id % 239, ((s.sx * s.sy : Nat) : Int)⟩
      ∧ (vmemcache_visual_draw s ⟨base, S⟩ base S id).output
        = [ESC, '[', '1', ';', '1', 'f', ESC, '[', '4', '8', ';', '5', ';']
            ++ printf_lu (if id = 0 then 0 else 17 + id % 239) ++ ['m']
            ++ List.replicate (s.sx * s.sy) ' ' ++ [ESC, '[', '0', 'm'] := by
  have hT : 0 < s.sx * s.sy := Nat.mul_pos hsx hsy
  have hint : s.sx * s.sy < 2 ^ 31 := by omega
  have h := vmemcache_visual_draw_exact s base S 0 S id hsx.ne' hS (by simpa using hfit)
  have e1 : (0 + S) * (s.sx * s.sy) / S = s.sx * s.sy := by
    rw [Nat.zero_add, Nat.mul_div_cancel_left _ hS]
  rw [Nat.add_zero, e1, Nat.zero_mul, Nat.zero_div, if_neg (by omega), Nat.zero_div,
    Nat.zero_mod, Nat.sub_zero, int_of_size_t_small _ hint] at h
  refine ⟨h, ?_⟩
  rw [h]
  have hcol : (if id = 0 then 0 else 17 + id % 239) ≤ 255 := by
    have : id % 239 < 239 := Nat.mod_lt _ (by decide)
    split <;> omega
  have hlen := printf_lu_length_color _ hcol
  have hone : (printf_lu 1).length = 1 := by decide
  have hIM : INT_MAX = 2 ^ 31 - 1 := rfl
  have hcomplete := printf_draw_complete
    ⟨0 + 1, 0 + 1, if id = 0 then 0 else 17 + id % 239, ((s.sx * s.sy : Nat) : Int)⟩
    (by
      rw [printf_header_length, printf_pad_count_natCast]
      simp only [Nat.zero_add, hone]
      omega)
  simp only [DrawOutcome.output, hcomplete, printf_header, printf_pad, printf_reset,
    printf_pad_count_natCast]
  simp [printf_lu, Nat.toDigits, Nat.toDigitsCore, Nat.digitChar]

/-- Witness of C7, amended: width 80, height 24 and an arena of 4000 bytes; the
whole-arena draw paints the cells `[0, 1920)` and ends with the attribute reset. -/
theorem vmemcache_visual_draw_whole_arena_witness :
    vmemcache_visual_draw ⟨80, 24⟩ ⟨4096, 4000⟩ 4096 4000 5
        = .printed 0 1920 ⟨1, 1, 22, 1920⟩
      ∧ (vmemcache_visual_draw ⟨80, 24⟩ ⟨4096, 4000⟩ 4096 4000 5).output
        = [ESC, '[', '1', ';', '1', 'f', ESC, '[', '4', '8', ';', '5', ';']
            ++ printf_lu 22 ++ ['m'] ++ List.replicate 1920 ' ' ++ [ESC, '[', '0', 'm'] :=
  vmemcache_visual_draw_whole_arena ⟨80, 24⟩ 4096 4000 5 (by decide) (by decide)
    (by decide) (by decide) (by decide)

/-- The two halves of an arena on 80 x 24 cells: the cell bound of the middle is
`960 - S % 2` and the cell bound of twice the integer half is `1920 - S % 2`. -/
theorem half_arena_cells (S : Nat) (hS : 0 < S) (hpar : S % 2 = 0 ∨ 1920 ≤ S) :
    S / 2 * (80 * 24) / S = 960 - S % 2 ∧ (S / 2 + S / 2) * (80 * 24) / S = 1920 - S % 2 := by
  rcases Nat.mod_two_eq_zero_or_one S with h | h
  · rw [h]
    exact ⟨Nat.div_eq_of_lt_le (by omega) (by omega), Nat.div_eq_of_lt_le (by omega) (by omega)⟩
  · rw [h]
    have h1920 : 1920 ≤ S := by omega
    exact ⟨Nat.div_eq_of_lt_le (by omega) (by omega), Nat.div_eq_of_lt_le (by omega) (by omega)⟩

/-- Counterexample to C8 as stated: width 80, height 24 and an arena of 3 bytes,
whose integer half is 1.  The first half paints the cells `[0, 640)`, and 640 is
not within 1 of 960; the second half paints `[640, 1280)`, not `[960, 1920)`. -/
theorem vmemcache_visual_draw_halves_odd :
    vmemcache_visual_draw ⟨80, 24⟩ ⟨4096, 3⟩ 4096 (3 / 2) 5
        = .printed 0 640 ⟨1, 1, 22, 640⟩
      ∧ ¬ (959 ≤ 640 ∧ 640 ≤ 961)
      ∧ vmemcache_visual_draw ⟨80, 24⟩ ⟨4096, 3⟩ (4096 + 3 / 2) (3 / 2) 5
        = .printed 640 1280 ⟨9, 1, 22, 640⟩
      ∧ (vmemcache_visual_draw ⟨80, 24⟩ ⟨4096, 3⟩ (4096 + 3 / 2) (3 / 2) 5).bounds
        ≠ some (960, 1920) := by
  decide

/-- C8, amended. Width 80, height 24, an arena size `S > 0` with `S * 1920` below
`2 ^ 64`, and `S` even or at least 1920.  With `e = 960` for even `S` and `e = 959`
for odd `S`, the draw at offset 0 of length `S / 2` paints the cells `[0, e)`, and
the draw at offset `S / 2` of length `S / 2` paints the 960 cells
`[e, e + 960)`; for even `S` these are `[0, 960)` and `[960, 1920)`. -/
theorem vmemcache_visual_draw_halves (base S id : Nat) (hS : 0 < S)
    (hfit : S * 1920 < U64) (hpar : S % 2 = 0 ∨ 1920 ≤ S) :
    vmemcache_visual_draw ⟨80, 24⟩ ⟨base, S⟩ base (S / 2) id
        = .printed 0 (960 - S % 2)
            ⟨1, 1, if id = 0 then 0 else 17 + id % 239, ((960 - S % 2 : Nat) : Int)⟩
      ∧ vmemcache_visual_draw ⟨80, 24⟩ ⟨base, S⟩ (base + S / 2) (S / 2) id
        = .printed (960 - S % 2) (960 - S % 2 + 960)
            ⟨(960 - S % 2) / 80 + 1, (960 - S % 2) % 80 + 1,
             if id = 0 then 0 else 17 + id % 239, 960⟩ := by
  obtain ⟨hmid, htop⟩ := half_arena_cells S hS hpar
  have hr : S % 2 < 2 := Nat.mod_lt _ (by decide)
  have hhalf : S / 2 ≤ S := Nat.div_le_self _ _
  have h2 : S / 2 + S / 2 ≤ S := by omega
  have hU : U64 = 18446744073709551616 := by decide
  constructor
  · have h := vmemcache_visual_draw_exact ⟨80, 24⟩ base S 0 (S / 2) id (by decide) hS
      (by simp only []; omega)
    simp only [Nat.zero_add, Nat.add_zero, Nat.zero_mul, Nat.zero_div, Nat.zero_mod,
      Nat.sub_zero, hmid] at h
    rw [if_neg (by omega), int_of_size_t_small _ (by omega)] at h
    exact h
  · have h := vmemcache_visual_draw_exact ⟨80, 24⟩ base S (S / 2) (S / 2) id (by decide) hS
      (by simp only []; omega)
    simp only [hmid, htop] at h
    rw [if_neg (by omega), show 1920 - S % 2 - (960 - S % 2) = 960 by omega,
      int_of_size_t_small _ (by decide), show 1920 - S % 2 = 960 - S % 2 + 960 by omega] at h
    exact h

/-- Witness of C8, amended: an arena of 4000 bytes is painted as `[0, 960)` and
`[960, 1920)`, the second half starting at row 13, column 1. -/
theorem vmemcache_visual_draw_halves_witness :
    vmemcache_visual_draw ⟨80, 24⟩ ⟨4096, 4000⟩ 4096 (4000 / 2) 5
        = .printed 0 960 ⟨1, 1, 22, 960⟩
      ∧ vmemcache_visual_draw ⟨80, 24⟩ ⟨4096, 4000⟩ (4096 + 4000 / 2) (4000 / 2) 5
        = .printed 960 1920 ⟨13, 1, 22, 960⟩ :=
  vmemcache_visual_draw_halves 4096 4000 5 (by decide) (by decide) (by decide)

/-- A byte range worth less than one cell ends at most one cell after its start, and
ends in the cell of its start exactly when it does not reach the next cell
boundary. -/
theorem subcell_bounds (X Y S : Nat) (hS : 0 < S) (hY : Y < S) :
    (X + Y) / S ≤ X / S + 1 ∧ ((X + Y) / S ≤ X / S ↔ X % S + Y < S) := by
  have hdec : X + Y = X % S + Y + S * (X / S) := by
    have := Nat.mod_add_div X S
    omega
  have hdiv : (X + Y) / S = (X % S + Y) / S + X / S := by
    rw [hdec, Nat.add_mul_div_left _ _ hS]
  have hr : X % S < S := Nat.mod_lt _ hS
  have hlt : (X % S + Y) / S < 2 := (Nat.div_lt_iff_lt_mul hS).2 (by omega)
  have hz : (X % S + Y) / S = 0 ↔ X % S + Y < S := Nat.div_eq_zero_iff hS
  rw [hdiv, ← hz]
  generalize (X % S + Y) / S = q at hlt
  generalize X / S = p
  constructor
  · omega
  · constructor
    · intro h; omega
    · intro h; omega

/-- Counterexample to C9 as stated: width 80, height 24 and an arena of 3840 bytes,
two bytes per cell.  The request at offset 1 of length 1 has
`length * total = 1920 < 3840`, yet it computes `a1 = 0`, `a2 = 1` and paints one
cell, because byte 1 ends at the boundary between cell 0 and cell 1. -/
theorem vmemcache_visual_draw_subcell_painted :
    1 * (80 * 24) < 3840
      ∧ vmemcache_visual_draw ⟨80, 24⟩ ⟨4096, 3840⟩ (4096 + 1) 1 5
        = .printed 0 1 ⟨1, 1, 22, 1⟩
      ∧ (vmemcache_visual_draw ⟨80, 24⟩ ⟨4096, 3840⟩ (4096 + 1) 1 5).output
        = [ESC, '[', '1', ';', '1', 'f', ESC, '[', '4', '8', ';', '5', ';', '2', '2', 'm',
            ' ', ESC, '[', '0', 'm'] := by
  decide

/-- C9, amended. For every enabled surface, arena size `S > 0`, offset and length
with `len * total < S` (`total = sx * sy`) and `(offset + len) * sx * sy` below
`2 ^ 64`, `vmemcache_visual_draw` computes `a2 ≤ a1 + 1`, so it paints at most one
cell; it computes `a2 ≤ a1` and writes nothing exactly when the range does not
reach the next cell boundary, `offset * total mod S + len * total < S`. -/
theorem vmemcache_visual_draw_subcell (s : Surface) (base S offset len id : Nat)
    (hsx : s.sx ≠ 0) (hS : 0 < S) (hfit : (offset + len) * s.sx * s.sy < U64)
    (hsub : len * (s.sx * s.sy) < S) :
    (vmemcache_visual_draw s ⟨base, S⟩ (base + offset) len id).bounds
        = some (offset * (s.sx * s.sy) / S, (offset + len) * (s.sx * s.sy) / S)
      ∧ (offset + len) * (s.sx * s.sy) / S ≤ offset * (s.sx * s.sy) / S + 1
      ∧ ((offset + len) * (s.sx * s.sy) / S ≤ offset * (s.sx * s.sy) / S
          ↔ offset * (s.sx * s.sy) % S + len * (s.sx * s.sy) < S)
      ∧ ((vmemcache_visual_draw s ⟨base, S⟩ (base + offset) len id).output = []
          ↔ offset * (s.sx * s.sy) % S + len * (s.sx * s.sy) < S) := by
  have hb := subcell_bounds (offset * (s.sx * s.sy)) (len * (s.sx * s.sy)) S hS hsub
  rw [← Nat.add_mul] at hb
  have hd := vmemcache_visual_draw_exact s base S offset len id hsx hS hfit
  refine ⟨?_, hb.1, hb.2, ?_⟩
  · rw [hd]; split <;> rfl
  · rw [hd, ← hb.2]
    by_cases hle : (offset + len) * (s.sx * s.sy) / S ≤ offset * (s.sx * s.sy) / S
    · rw [if_pos hle]
      simp [DrawOutcome.output, hle]
    · rw [if_neg hle]
      simp only [DrawOutcome.output]
      constructor
      · intro h
        exact absurd h (printf_draw_ne_nil _)
      · intro h
        exact absurd h hle

/-- Witness of C9, amended: 80 x 24 cells and an arena of 3840 bytes; the byte at
offset 0 stays inside cell 0 and nothing is written. -/
theorem vmemcache_visual_draw_subcell_witness :
    (vmemcache_visual_draw ⟨80, 24⟩ ⟨4096, 3840⟩ (4096 + 0) 1 5).output = [] :=
  (vmemcache_visual_draw_subcell ⟨80, 24⟩ 4096 3840 0 1 5 (by decide) (by decide)
    (by decide) (by decide)).2.2.2.2 (by decide)

/-- Counterexample to C10 as stated: an 80 x 24 terminal, for which
`vmemcache_visual_enable` returns 1920, and an arena of 1920 blocks of `2 ^ 50`
bytes.  The request for the 3 blocks from block 1000 on computes `a1 = 1`,
`a2 = 4` (the product `1000 * 2 ^ 50 * 80 * 24` exceeds 64 bits), so the blocks
1000..1002 are painted on the cells 1..3. -/
theorem vmemcache_visual_draw_block_aligned_wrap :
    vmemcache_visual_enable ⟨0, 0⟩ (.reported 80 24) = (1920, ⟨80, 24⟩)
      ∧ 1000 + 3 ≤ 1920
      ∧ vmemcache_visual_draw (vmemcache_visual_enable ⟨0, 0⟩ (.reported 80 24)).2
          ⟨4096, (vmemcache_visual_enable ⟨0, 0⟩ (.reported 80 24)).1 * 2 ^ 50⟩
          (4096 + 1000 * 2 ^ 50) (3 * 2 ^ 50) 5
        = .printed 1 4 ⟨1, 2, 22, 3⟩ := by
  decide

/-- C10, amended. Let `total` be the value returned by `vmemcache_visual_enable` for
a reported geometry of positive 16-bit values, and let the arena hold exactly
`total` blocks of `B > 0` bytes.  For a request with `offset = i * B`,
`len = n * B`, `n > 0`, `i + n ≤ total` and `(i + n) * B * total` below `2 ^ 64`,
`vmemcache_visual_draw` computes `a1 = i` and `a2 = i + n`; when moreover
`n < 2 ^ 31` it writes exactly `n` blanks, starting at the position of cell `i`. -/
theorem vmemcache_visual_draw_block_aligned (s0 : Surface) (ws_col ws_row B i n base id : Nat)
    (hc : 0 < ws_col) (hr : 0 < ws_row) (hc16 : ws_col < U16) (hr16 : ws_row < U16)
    (hB : 0 < B) (hn : 0 < n)
    (_hin : i + n ≤ (vmemcache_visual_enable s0 (.reported ws_col ws_row)).1)
    (hfit : (i + n) * B * (vmemcache_visual_enable s0 (.reported ws_col ws_row)).1 < U64) :
    (vmemcache_visual_draw (vmemcache_visual_enable s0 (.reported ws_col ws_row)).2
        ⟨base, (vmemcache_visual_enable s0 (.reported ws_col ws_row)).1 * B⟩
        (base + i * B) (n * B) id).bounds = some (i, i + n)
      ∧ (n < 2 ^ 31 →
          vmemcache_visual_draw (vmemcache_visual_enable s0 (.reported ws_col ws_row)).2
            ⟨base, (vmemcache_visual_enable s0 (.reported ws_col ws_row)).1 * B⟩
            (base + i * B) (n * B) id
          = .printed i (i + n)
              ⟨i / ws_col + 1, i % ws_col + 1, if id = 0 then 0 else 17 + id % 239, (n : Int)⟩
          ∧ printf_pad (n : Int) = List.replicate n ' ') := by
  have he := vmemcache_visual_enable_reported_eq s0 ws_col ws_row hc hr hc16 hr16
  rw [he] at hfit ⊢
  simp only [] at hfit ⊢
  have hT : 0 < ws_col * ws_row := Nat.mul_pos hc hr
  have hS : 0 < ws_col * ws_row * B := Nat.mul_pos hT hB
  have hfit2 : (i * B + n * B) * ws_col * ws_row < U64 := by
    rw [← Nat.add_mul, Nat.mul_assoc ((i + n) * B)]
    exact hfit
  have hd := vmemcache_visual_draw_exact ⟨ws_col, ws_row⟩ base (ws_col * ws_row * B) (i * B)
    (n * B) id hc.ne' hS hfit2
  simp only [] at hd
  have e1 : i * B * (ws_col * ws_row) / (ws_col * ws_row * B) = i := by
    rw [Nat.mul_assoc, Nat.mul_comm B]
    exact Nat.mul_div_cancel _ hS
  have e2 : (i * B + n * B) * (ws_col * ws_row) / (ws_col * ws_row * B) = i + n := by
    rw [← Nat.add_mul, Nat.mul_assoc, Nat.mul_comm B]
    exact Nat.mul_div_cancel _ hS
  rw [e1, e2, if_neg (by omega), Nat.add_sub_cancel_left] at hd
  rw [hd]
  refine ⟨rfl, ?_⟩
  intro hn31
  rw [int_of_size_t_small n hn31]
  exact ⟨rfl, by rw [printf_pad, printf_pad_count_natCast]⟩

/-- Witness of C10, amended: 80 x 24 cells, blocks of 4096 bytes, the 3 blocks from
block 1000 on are painted on the cells 1000..1002 (row 13, column 41). -/
theorem vmemcache_visual_draw_block_aligned_witness :
    vmemcache_visual_draw (vmemcache_visual_enable ⟨0, 0⟩ (.reported 80 24)).2
        ⟨65536, (vmemcache_visual_enable ⟨0, 0⟩ (.reported 80 24)).1 * 4096⟩
        (65536 + 1000 * 4096) (3 * 4096) 5
      = .printed 1000 (1000 + 3) ⟨1000 / 80 + 1, 1000 % 80 + 1, 22, 3⟩ :=
  ((vmemcache_visual_draw_block_aligned ⟨0, 0⟩ 80 24 4096 1000 3 65536 5 (by decide)
    (by decide) (by decide) (by decide) (by decide) (by decide) (by decide) (by decide)).2
    (by decide)).1

/-! ### The text written by a paint -/

/-- Unfolding of `vmemcache_visual_draw` on an enabled surface and a nonempty arena,
with the wraparound of the `printf` arguments removed: the locals `a1`, `a2` are
64-bit values, and when `a1 < a2` neither `a1 / sx + 1`, `a1 % sx + 1` nor
`a2 - a1` wraps. -/
theorem vmemcache_visual_draw_locals (s : Surface) (c : VMEMcache) (addr len id : Nat)
    (hsx : s.sx ≠ 0) (hsize : c.size ≠ 0) :
    ∃ a1 a2 : Nat, a2 < U64
      ∧ a1 = ptrdiff_to_size_t addr c.addr * s.sx % U64 * s.sy % U64 / c.size
      ∧ a2 = (ptrdiff_to_size_t addr c.addr + len) % U64 * s.sx % U64 * s.sy % U64 / c.size
      ∧ vmemcache_visual_draw s c addr len id =
          if a2 ≤ a1 then .dropped a1 a2
          else .printed a1 a2
            ⟨a1 / s.sx + 1, a1 % s.sx + 1, if id = 0 then 0 else 17 + id % 239,
             int_of_size_t (a2 - a1)⟩ := by
  refine ⟨_, _, ?_, rfl, rfl, ?_⟩
  · exact lt_of_le_of_lt (Nat.div_le_self _ _) (Nat.mod_lt _ (by decide))
  · rw [vmemcache_visual_draw_enabled s c addr len id hsx hsize]
    have ha2 : (ptrdiff_to_size_t addr c.addr + len) % U64 * s.sx % U64 * s.sy % U64 / c.size
        < U64 := lt_of_le_of_lt (Nat.div_le_self _ _) (Nat.mod_lt _ (by decide))
    generalize (ptrdiff_to_size_t addr c.addr + len) % U64 * s.sx % U64 * s.sy % U64 / c.size
      = a2 at ha2
    generalize ptrdiff_to_size_t addr c.addr * s.sx % U64 * s.sy % U64 / c.size = a1
    by_cases hd : a2 ≤ a1
    · rw [if_pos hd, if_pos hd]
    · rw [if_neg hd, if_neg hd]
      have hrow : a1 / s.sx ≤ a1 := Nat.div_le_self _ _
      have hcol : a1 % s.sx ≤ a1 := Nat.mod_le _ _
      have h1 : a1 / s.sx + 1 < U64 := lt_of_le_of_lt (by omega) ha2
      have h2 : a1 % s.sx + 1 < U64 := lt_of_le_of_lt (by omega) ha2
      have h3 : a2 - a1 < U64 := lt_of_le_of_lt (Nat.sub_le _ _) ha2
      rw [Nat.mod_eq_of_lt h1, Nat.mod_eq_of_lt h2, Nat.mod_eq_of_lt h3]

/-- A call that reached the `printf` had an enabled surface, a nonempty arena and
`a1 < a2`, and the arguments of the `printf` are `a1 / sx + 1`, `a1 % sx + 1`, the
folded colour and `(int)(a2 - a1)`. -/
theorem vmemcache_visual_draw_printed (s : Surface) (c : VMEMcache)
    (addr len id a1 a2 : Nat) (p : PrintfArgs)
    (hp : vmemcache_visual_draw s c addr len id = .printed a1 a2 p) :
    s.sx ≠ 0 ∧ c.size ≠ 0 ∧ a1 < a2 ∧ a2 < U64
      ∧ p = ⟨a1 / s.sx + 1, a1 % s.sx + 1, if id = 0 then 0 else 17 + id % 239,
             int_of_size_t (a2 - a1)⟩ := by
  by_cases hsx : s.sx = 0
  · simp [vmemcache_visual_draw, hsx] at hp
  by_cases hsize : c.size = 0
  · simp [vmemcache_visual_draw, hsx, hsize] at hp
  obtain ⟨b1, b2, hb2, _, _, hd⟩ := vmemcache_visual_draw_locals s c addr len id hsx hsize
  rw [hd] at hp
  by_cases hle : b2 ≤ b1
  · rw [if_pos hle] at hp
    exact DrawOutcome.noConfusion hp
  · rw [if_neg hle] at hp
    injection hp with e1 e2 e3
    subst e1 e2 e3
    exact ⟨hsx, hsize, by omega, hb2, rfl⟩

/-- A decimal digit is not a blank. -/
theorem digitChar_ne_blank (m : Nat) (hm : m < 10) : Nat.digitChar m ≠ ' ' := by
  interval_cases m <;> decide

/-- The decimal digits produced by `Nat.toDigitsCore` contain no blank. -/
theorem toDigitsCore_no_blank (fuel : Nat) :
    ∀ (n : Nat) (ds : List Char), ' ' ∉ ds → ' ' ∉ Nat.toDigitsCore 10 fuel n ds := by
  induction fuel with
  | zero => intro n ds hds; simpa [Nat.toDigitsCore] using hds
  | succ fuel ih =>
    intro n ds hds
    have hd : ' ' ∉ Nat.digitChar (n % 10) :: ds := by
      intro hmem
      rcases List.mem_cons.1 hmem with h | h
      · exact digitChar_ne_blank (n % 10) (Nat.mod_lt _ (by decide)) h.symm
      · exact hds h
    unfold Nat.toDigitsCore
    simp only []
    split
    · exact hd
    · exact ih _ _ hd

/-- The conversion `%lu` writes no blank. -/
theorem printf_lu_count_blank (n : Nat) : (printf_lu n).count ' ' = 0 := by
  rw [List.count_eq_zero]
  exact toDigitsCore_no_blank _ _ _ (List.not_mem_nil _)

/-- The blanks of the text of line 112 are those of its `%*s` field. -/
theorem printf_draw_count_blank (p : PrintfArgs) :
    (printf_draw p).count ' ' = printf_pad_count p.width := by
  have hESC : (ESC == ' ') = false := by decide
  unfold printf_draw
  split <;>
    simp [printf_header, printf_reset, printf_pad, List.count_append, printf_lu_count_blank,
      List.count_cons, hESC]

/-- Counterexample to C11 as stated: a terminal of 65535 x 65535 cells and an arena
of one byte per cell.  The whole-arena draw paints (`a1 = 0`,
`a2 = 4294836225`), but the run length passes through `(int)(a2 - a1)`, which is
`-131071`, so the field of `%*s` holds 131071 blanks, not `a2 - a1`. -/
theorem vmemcache_visual_draw_run_truncated :
    vmemcache_visual_draw ⟨65535, 65535⟩ ⟨4096, 4294836225⟩ 4096 4294836225 5
        = .printed 0 4294836225 ⟨1, 1, 22, -131071⟩
      ∧ (vmemcache_visual_draw ⟨65535, 65535⟩ ⟨4096, 4294836225⟩ 4096 4294836225 5).output.count
          ' ' = 131071
      ∧ (131071 : Nat) ≠ 4294836225 - 0 := by
  have h : vmemcache_visual_draw ⟨65535, 65535⟩ ⟨4096, 4294836225⟩ 4096 4294836225 5
      = .printed 0 4294836225 ⟨1, 1, 22, -131071⟩ := by decide
  refine ⟨h, ?_, by decide⟩
  rw [h]
  simp only [DrawOutcome.output, printf_draw_count_blank]
  rfl

/-- C11, amended. Whenever `vmemcache_visual_draw` paints (it reached the `printf`
with the locals `a1 < a2`) and the run `a2 - a1` is below `2 ^ 31`, the `printf`
arguments are the 1-based row `a1 / sx + 1`, the 1-based column `a1 % sx + 1`, the
colour index and the width `a2 - a1`; the output begins with the cursor position,
the 256-colour background selector and exactly `a2 - a1` blanks, and the number
of blanks written is `a2 - a1`.  When moreover the whole sequence has at most
`INT_MAX` characters, the output is exactly that one sequence followed by the
attribute reset. -/
theorem vmemcache_visual_draw_output (s : Surface) (c : VMEMcache)
    (addr len id a1 a2 : Nat) (p : PrintfArgs)
    (hp : vmemcache_visual_draw s c addr len id = .printed a1 a2 p)
    (hrun : a2 - a1 < 2 ^ 31) :
    a1 < a2
      ∧ p = ⟨a1 / s.sx + 1, a1 % s.sx + 1, if id = 0 then 0 else 17 + id % 239,
             ((a2 - a1 : Nat) : Int)⟩
      ∧ List.IsPrefix
          ([ESC, '['] ++ printf_lu (a1 / s.sx + 1) ++ [';'] ++ printf_lu (a1 % s.sx + 1)
            ++ ['f'] ++ [ESC, '[', '4', '8', ';', '5', ';']
            ++ printf_lu (if id = 0 then 0 else 17 + id % 239) ++ ['m']
            ++ List.replicate (a2 - a1) ' ')
          (vmemcache_visual_draw s c addr len id).output
      ∧ (vmemcache_visual_draw s c addr len id).output.count ' ' = a2 - a1
      ∧ ((printf_header p).length + (a2 - a1) + 4 ≤ INT_MAX →
          (vmemcache_visual_draw s c addr len id).output
            = [ESC, '['] ++ printf_lu (a1 / s.sx + 1) ++ [';'] ++ printf_lu (a1 % s.sx + 1)
                ++ ['f'] ++ [ESC, '[', '4', '8', ';', '5', ';']
                ++ printf_lu (if id = 0 then 0 else 17 + id % 239) ++ ['m']
                ++ List.replicate (a2 - a1) ' '
                ++ [ESC, '[', '0', 'm']) := by
  obtain ⟨_, _, hlt, _, hargs⟩ := vmemcache_visual_draw_printed s c addr len id a1 a2 p hp
  rw [int_of_size_t_small _ hrun] at hargs
  have hpre := printf_draw_header_pad p
  have hcount := printf_draw_count_blank p
  refine ⟨hlt, hargs, ?_, ?_, ?_⟩
  · rw [hp]
    simp only [DrawOutcome.output]
    rw [hargs] at hpre ⊢
    simpa only [printf_header, printf_pad, printf_pad_count_natCast] using hpre
  · rw [hp]
    simp only [DrawOutcome.output]
    rw [hcount, hargs, printf_pad_count_natCast]
  · intro hroom
    have hcomplete := printf_draw_complete p (by
      rw [hargs, printf_pad_count_natCast]
      rw [hargs] at hroom
      exact hroom)
    rw [hp]
    simp only [DrawOutcome.output, hcomplete]
    rw [hargs]
    simp only [printf_header, printf_pad, printf_reset, printf_pad_count_natCast]

/-- Witness of C11, amended: 80 x 24 cells, an arena of 4000 bytes, the request at
offset 1000 of length 500 paints the 240 cells from cell 480 (row 7, column 1). -/
theorem vmemcache_visual_draw_output_witness :
    (vmemcache_visual_draw ⟨80, 24⟩ ⟨4096, 4000⟩ 5096 500 5).output.count ' ' = 720 - 480
      ∧ (vmemcache_visual_draw ⟨80, 24⟩ ⟨4096, 4000⟩ 5096 500 5).output
        = [ESC, '['] ++ printf_lu (480 / 80 + 1) ++ [';'] ++ printf_lu (480 % 80 + 1)
            ++ ['f'] ++ [ESC, '[', '4', '8', ';', '5', ';']
            ++ printf_lu (if 5 = 0 then 0 else 17 + 5 % 239) ++ ['m']
            ++ List.replicate (720 - 480) ' '
            ++ [ESC, '[', '0', 'm'] :=
  ⟨(vmemcache_visual_draw_output ⟨80, 24⟩ ⟨4096, 4000⟩ 5096 500 5 480 720 ⟨7, 1, 22, 240⟩
      (by decide) (by decide)).2.2.2.1,
    (vmemcache_visual_draw_output ⟨80, 24⟩ ⟨4096, 4000⟩ 5096 500 5 480 720 ⟨7, 1, 22, 240⟩
      (by decide) (by decide)).2.2.2.2 (by decide)⟩

/-! ### Failure -/

/-- Counterexample to C12 as stated: with an enabled surface of 80 x 24 cells and
an arena of size 0, `vmemcache_visual_draw` reaches the division by `c->size` of
line 95, which is a division by zero. -/
theorem vmemcache_visual_draw_zero_arena :
    vmemcache_visual_draw ⟨80, 24⟩ ⟨4096, 0⟩ 4096 0 5 = .divByZero := by
  decide

/-- C12, amended. When the surface is disabled or the arena size is not zero, for
every address, length and identifier the call of `vmemcache_visual_draw` completes
as a silent no-op (one of the two `return`s, nothing written) or as a paint (the
one `printf`); the division by zero is not reached. -/
theorem vmemcache_visual_draw_completes (s : Surface) (c : VMEMcache) (addr len id : Nat)
    (h : s.sx = 0 ∨ c.size ≠ 0) :
    vmemcache_visual_draw s c addr len id ≠ .divByZero
      ∧ (((vmemcache_visual_draw s c addr len id = .disabled
            ∨ ∃ a1 a2, vmemcache_visual_draw s c addr len id = .dropped a1 a2)
          ∧ (vmemcache_visual_draw s c addr len id).output = [])
        ∨ ∃ a1 a2 p, vmemcache_visual_draw s c addr len id = .printed a1 a2 p
            ∧ (vmemcache_visual_draw s c addr len id).output = printf_draw p) := by
  by_cases hsx : s.sx = 0
  · have hd : vmemcache_visual_draw s c addr len id = .disabled := by
      simp [vmemcache_visual_draw, hsx]
    rw [hd]
    exact ⟨by simp, Or.inl ⟨Or.inl rfl, rfl⟩⟩
  · have hsize : c.size ≠ 0 := h.resolve_left hsx
    obtain ⟨a1, a2, _, _, _, hd⟩ := vmemcache_visual_draw_locals s c addr len id hsx hsize
    rw [hd]
    by_cases hle : a2 ≤ a1
    · rw [if_pos hle]
      exact ⟨by simp, Or.inl ⟨Or.inr ⟨a1, a2, rfl⟩, rfl⟩⟩
    · rw [if_neg hle]
      exact ⟨by simp, Or.inr ⟨a1, a2, _, rfl, rfl⟩⟩

/-- Witness of C12, amended: an enabled surface and an arena of 4000 bytes. -/
theorem vmemcache_visual_draw_completes_witness :
    vmemcache_visual_draw ⟨80, 24⟩ ⟨4096, 4000⟩ 5096 500 5 ≠ .divByZero :=
  (vmemcache_visual_draw_completes ⟨80, 24⟩ ⟨4096, 4000⟩ 5096 500 5
    (Or.inr (by decide))).1

/-! ### Reachable surface states -/

/-- One call of `vmemcache_visual_enable` with a well-formed query keeps the two
fields both zero or both positive. -/
theorem vmemcache_visual_enable_both (s : Surface) (q : TermQuery)
    (hq : q.wellFormed = true)
    (hs : (s.sx = 0 ∧ s.sy = 0) ∨ (0 < s.sx ∧ 0 < s.sy)) :
    ((vmemcache_visual_enable s q).2.sx = 0 ∧ (vmemcache_visual_enable s q).2.sy = 0)
      ∨ (0 < (vmemcache_visual_enable s q).2.sx ∧ 0 < (vmemcache_visual_enable s q).2.sy) := by
  cases q with
  | notTerminal => exact hs
  | queryFailed => exact hs
  | reported ws_col ws_row =>
    by_cases h : ws_row ≤ 0 ∨ ws_col ≤ 0
    · simp only [vmemcache_visual_enable, if_pos h]
      exact hs
    · simp only [TermQuery.wellFormed, Bool.and_eq_true, decide_eq_true_eq] at hq
      have h1 : ws_col % U32 = ws_col := Nat.mod_eq_of_lt (lt_trans hq.1 (by decide))
      have h2 : ws_row % U32 = ws_row := Nat.mod_eq_of_lt (lt_trans hq.2 (by decide))
      simp only [vmemcache_visual_enable, if_neg h, h1, h2]
      right
      omega

/-- Any sequence of calls of `vmemcache_visual_enable` with well-formed queries keeps
the two fields both zero or both positive. -/
theorem enable_calls_both (qs : List TermQuery) :
    ∀ s : Surface, (∀ q ∈ qs, q.wellFormed = true) →
      ((s.sx = 0 ∧ s.sy = 0) ∨ (0 < s.sx ∧ 0 < s.sy)) →
      ((enable_calls s qs).sx = 0 ∧ (enable_calls s qs).sy = 0)
        ∨ (0 < (enable_calls s qs).sx ∧ 0 < (enable_calls s qs).sy) := by
  induction qs with
  | nil => intro s _ hs; exact hs
  | cons q qs ih =>
    intro s hq hs
    have h1 := vmemcache_visual_enable_both s q (hq q (List.mem_cons_self _ _)) hs
    exact ih _ (fun r hr => hq r (List.mem_cons_of_mem _ hr)) h1

/-- C13. In every surface state reached from the initial state `(0, 0)` by a
sequence of calls of `vmemcache_visual_enable` (POSIX branch, the reported
dimensions being 16-bit values), `sx` and `sy` are both zero or both positive; so
the test `sx == 0` of `vmemcache_visual_draw` holds exactly in the states in which
either field is zero, and these are the states in which every draw takes the
`return` of line 92. -/
theorem enable_calls_zero_iff (qs : List TermQuery) (hq : ∀ q ∈ qs, q.wellFormed = true) :
    (((enable_calls Surface.initial qs).sx = 0 ∧ (enable_calls Surface.initial qs).sy = 0)
        ∨ (0 < (enable_calls Surface.initial qs).sx ∧ 0 < (enable_calls Surface.initial qs).sy))
      ∧ ((enable_calls Surface.initial qs).sx = 0
          ↔ ((enable_calls Surface.initial qs).sx = 0 ∨ (enable_calls Surface.initial qs).sy = 0))
      ∧ ∀ (c : VMEMcache) (addr len id : Nat),
          (vmemcache_visual_draw (enable_calls Surface.initial qs) c addr len id = .disabled
            ↔ ((enable_calls Surface.initial qs).sx = 0
                ∨ (enable_calls Surface.initial qs).sy = 0)) := by
  have hb := enable_calls_both qs Surface.initial hq (Or.inl ⟨rfl, rfl⟩)
  generalize enable_calls Surface.initial qs = s at hb
  have hiff : s.sx = 0 ↔ (s.sx = 0 ∨ s.sy = 0) := by omega
  refine ⟨hb, hiff, ?_⟩
  intro c addr len id
  rw [← hiff]
  constructor
  · intro hd
    by_contra hsx
    by_cases hsize : c.size = 0
    · simp [vmemcache_visual_draw, hsx, hsize] at hd
    · rw [vmemcache_visual_draw_enabled s c addr len id hsx hsize] at hd
      split at hd <;> exact DrawOutcome.noConfusion hd
  · intro hsx
    simp [vmemcache_visual_draw, hsx]

/-- Witness of C13: a successful probe of 80 x 24, a failed probe, then a terminal
that reports 0 x 0 leave the surface at `(80, 24)`, both fields positive. -/
theorem enable_calls_zero_iff_witness :
    enable_calls Surface.initial [.reported 80 24, .queryFailed, .reported 0 0] = ⟨80, 24⟩
      ∧ (((enable_calls Surface.initial [.reported 80 24, .queryFailed, .reported 0 0]).sx = 0
          ∧ (enable_calls Surface.initial [.reported 80 24, .queryFailed, .reported 0 0]).sy = 0)
        ∨ (0 < (enable_calls Surface.initial [.reported 80 24, .queryFailed, .reported 0 0]).sx
          ∧ 0 < (enable_calls Surface.initial
              [.reported 80 24, .queryFailed, .reported 0 0]).sy)) :=
  ⟨by decide,
    (enable_calls_zero_iff [.reported 80 24, .queryFailed, .reported 0 0] (by decide)).1⟩

/-! ### Adjacent ranges and the grid -/

/-- The locals `a1`, `a2` of a call on an enabled surface and a nonempty arena. -/
theorem vmemcache_visual_draw_bounds_enabled (s : Surface) (c : VMEMcache)
    (addr len id : Nat) (hsx : s.sx ≠ 0) (hsize : c.size ≠ 0) :
    (vmemcache_visual_draw s c addr len id).bounds
      = some (ptrdiff_to_size_t addr c.addr * s.sx % U64 * s.sy % U64 / c.size,
          (ptrdiff_to_size_t addr c.addr + len) % U64 * s.sx % U64 * s.sy % U64 / c.size) := by
  rw [vmemcache_visual_draw_enabled s c addr len id hsx hsize]
  split <;> rfl

/-- The cells painted by a call whose products fit in 64 bits and whose run is
below `2 ^ 31`: the cells from `a1` up to, not including, `a2`. -/
theorem vmemcache_visual_draw_cells_exact (s : Surface) (base S offset len id : Nat)
    (hsx : s.sx ≠ 0) (hS : 0 < S) (hfit : (offset + len) * s.sx * s.sy < U64)
    (hrun : (offset + len) * (s.sx * s.sy) / S - offset * (s.sx * s.sy) / S < 2 ^ 31) :
    (vmemcache_visual_draw s ⟨base, S⟩ (base + offset) len id).cells
      = List.range' (offset * (s.sx * s.sy) / S)
          ((offset + len) * (s.sx * s.sy) / S - offset * (s.sx * s.sy) / S) := by
  rw [vmemcache_visual_draw_exact s base S offset len id hsx hS hfit]
  by_cases hd : (offset + len) * (s.sx * s.sy) / S ≤ offset * (s.sx * s.sy) / S
  · rw [if_pos hd, Nat.sub_eq_zero_of_le hd]
    rfl
  · rw [if_neg hd]
    simp only [DrawOutcome.cells, int_of_size_t_small _ hrun, printf_pad_count_natCast]

/-- Counterexample to C14 as stated: 80 x 24 cells and an arena of `2 ^ 60` bytes;
the two adjacent pieces of `2 ^ 53` bytes at offset 0 lie inside the arena.  The
first piece paints the cells `[0, 15)`; for the second piece the product
`2 ^ 54 * 80 * 24` wraps, `a2 = 14 ≤ a1 = 15` and it is dropped; the one call for
both pieces paints the cells `[0, 14)`.  The pieces touch cell 14, the one call
does not. -/
theorem vmemcache_visual_draw_adjacent_wrap :
    0 + 2 ^ 53 + 2 ^ 53 ≤ 2 ^ 60
      ∧ vmemcache_visual_draw ⟨80, 24⟩ ⟨4096, 2 ^ 60⟩ (4096 + 0) (2 ^ 53) 5
          = .printed 0 15 ⟨1, 1, 22, 15⟩
      ∧ vmemcache_visual_draw ⟨80, 24⟩ ⟨4096, 2 ^ 60⟩ (4096 + 0 + 2 ^ 53) (2 ^ 53) 5
          = .dropped 15 14
      ∧ vmemcache_visual_draw ⟨80, 24⟩ ⟨4096, 2 ^ 60⟩ (4096 + 0) (2 ^ 53 + 2 ^ 53) 5
          = .printed 0 14 ⟨1, 1, 22, 14⟩
      ∧ (vmemcache_visual_draw ⟨80, 24⟩ ⟨4096, 2 ^ 60⟩ (4096 + 0) (2 ^ 53) 5).cells
          ++ (vmemcache_visual_draw ⟨80, 24⟩ ⟨4096, 2 ^ 60⟩ (4096 + 0 + 2 ^ 53) (2 ^ 53) 5).cells
          = List.range' 0 15
      ∧ (vmemcache_visual_draw ⟨80, 24⟩ ⟨4096, 2 ^ 60⟩ (4096 + 0) (2 ^ 53 + 2 ^ 53) 5).cells
          = List.range' 0 14
      ∧ (vmemcache_visual_draw ⟨80, 24⟩ ⟨4096, 2 ^ 60⟩ (4096 + 0) (2 ^ 53) 5).cells
          ++ (vmemcache_visual_draw ⟨80, 24⟩ ⟨4096, 2 ^ 60⟩ (4096 + 0 + 2 ^ 53) (2 ^ 53) 5).cells
          ≠ (vmemcache_visual_draw ⟨80, 24⟩ ⟨4096, 2 ^ 60⟩ (4096 + 0) (2 ^ 53 + 2 ^ 53) 5).cells := by
  decide

/-- C14, amended. For every enabled surface, arena size `S > 0`, offset `o` and
lengths `l1`, `l2`, the upper cell bound that `vmemcache_visual_draw` computes for
`(o, l1)` is the lower cell bound it computes for `(o + l1, l2)`, and the outer
bounds of the two pieces are the bounds of the one call for `(o, l1 + l2)`.  When
`(o + l1 + l2) * sx * sy` fits in 64 bits and the cell run of the whole range is
below `2 ^ 31`, the three bounds are in order and the cells painted by the two
pieces, one after the other, are exactly the cells painted by the one call. -/
theorem vmemcache_visual_draw_adjacent (s : Surface) (base S o l1 l2 id1 id2 id3 : Nat)
    (hsx : s.sx ≠ 0) (hS : 0 < S) :
    (vmemcache_visual_draw s ⟨base, S⟩ (base + o) l1 id1).bounds
        = some (o % U64 * s.sx % U64 * s.sy % U64 / S,
            (o + l1) % U64 * s.sx % U64 * s.sy % U64 / S)
      ∧ (vmemcache_visual_draw s ⟨base, S⟩ (base + o + l1) l2 id2).bounds
        = some ((o + l1) % U64 * s.sx % U64 * s.sy % U64 / S,
            (o + l1 + l2) % U64 * s.sx % U64 * s.sy % U64 / S)
      ∧ (vmemcache_visual_draw s ⟨base, S⟩ (base + o) (l1 + l2) id3).bounds
        = some (o % U64 * s.sx % U64 * s.sy % U64 / S,
            (o + l1 + l2) % U64 * s.sx % U64 * s.sy % U64 / S)
      ∧ ((o + l1 + l2) * s.sx * s.sy < U64 →
          (o + l1 + l2) * (s.sx * s.sy) / S - o * (s.sx * s.sy) / S < 2 ^ 31 →
          o * (s.sx * s.sy) / S ≤ (o + l1) * (s.sx * s.sy) / S
            ∧ (o + l1) * (s.sx * s.sy) / S ≤ (o + l1 + l2) * (s.sx * s.sy) / S
            ∧ (vmemcache_visual_draw s ⟨base, S⟩ (base + o) l1 id1).cells
                ++ (vmemcache_visual_draw s ⟨base, S⟩ (base + o + l1) l2 id2).cells
              = (vmemcache_visual_draw s ⟨base, S⟩ (base + o) (l1 + l2) id3).cells
            ∧ (vmemcache_visual_draw s ⟨base, S⟩ (base + o) (l1 + l2) id3).cells
              = List.range' (o * (s.sx * s.sy) / S)
                  ((o + l1 + l2) * (s.sx * s.sy) / S - o * (s.sx * s.sy) / S)) := by
  have hsize : (⟨base, S⟩ : VMEMcache).size ≠ 0 := by simpa using hS.ne'
  have hp0 : ptrdiff_to_size_t (base + o) base = o % U64 := ptrdiff_to_size_t_add base o
  have hp1 : ptrdiff_to_size_t (base + o + l1) base = (o + l1) % U64 := by
    rw [Nat.add_assoc, ptrdiff_to_size_t_add]
  refine ⟨?_, ?_, ?_, ?_⟩
  · rw [vmemcache_visual_draw_bounds_enabled s ⟨base, S⟩ (base + o) l1 id1 hsx hsize]
    simp only [hp0, Nat.mod_add_mod]
  · rw [vmemcache_visual_draw_bounds_enabled s ⟨base, S⟩ (base + o + l1) l2 id2 hsx hsize]
    simp only [hp1, Nat.mod_add_mod]
  · rw [vmemcache_visual_draw_bounds_enabled s ⟨base, S⟩ (base + o) (l1 + l2) id3 hsx hsize]
    simp only [hp0, Nat.mod_add_mod, Nat.add_assoc]
  · intro hfit hrun
    have hmono : ∀ x y : Nat, x ≤ y → x * s.sx * s.sy ≤ y * s.sx * s.sy := fun x y hxy =>
      Nat.mul_le_mul_right _ (Nat.mul_le_mul_right _ hxy)
    have hfit1 : (o + l1) * s.sx * s.sy < U64 :=
      lt_of_le_of_lt (hmono _ _ (Nat.le_add_right _ _)) hfit
    have h12 : o * (s.sx * s.sy) / S ≤ (o + l1) * (s.sx * s.sy) / S :=
      Nat.div_le_div_right (Nat.mul_le_mul_right _ (Nat.le_add_right _ _))
    have h23 : (o + l1) * (s.sx * s.sy) / S ≤ (o + l1 + l2) * (s.sx * s.sy) / S :=
      Nat.div_le_div_right (Nat.mul_le_mul_right _ (Nat.le_add_right _ _))
    have c1 := vmemcache_visual_draw_cells_exact s base S o l1 id1 hsx hS hfit1 (by omega)
    have c2 := vmemcache_visual_draw_cells_exact s base S (o + l1) l2 id2 hsx hS hfit
      (by omega)
    have c3 := vmemcache_visual_draw_cells_exact s base S o (l1 + l2) id3 hsx hS
      (by rw [← Nat.add_assoc]; exact hfit) (by rw [← Nat.add_assoc]; exact hrun)
    rw [← Nat.add_assoc] at c2 c3
    refine ⟨h12, h23, ?_, c3⟩
    rw [c1, c2, c3]
    generalize o * (s.sx * s.sy) / S = a1 at h12 ⊢
    generalize (o + l1) * (s.sx * s.sy) / S = a2 at h12 h23 ⊢
    generalize (o + l1 + l2) * (s.sx * s.sy) / S = a3 at h23 ⊢
    have e2 : a2 = a1 + (a2 - a1) := by omega
    have e3 : a3 - a1 = (a3 - a2) + (a2 - a1) := by omega
    rw [e3]
    nth_rewrite 2 [e2]
    exact List.range'_append_1 a1 (a2 - a1) (a3 - a2)

/-- Witness of C14, amended: 80 x 24 cells and an arena of 4000 bytes; the pieces
`(1000, 500)` and `(1500, 300)` have the bounds `(480, 720)` and `(720, 864)`, and
together they paint the cells `[480, 864)` of the one call `(1000, 800)`. -/
theorem vmemcache_visual_draw_adjacent_witness :
    (vmemcache_visual_draw ⟨80, 24⟩ ⟨4096, 4000⟩ (4096 + 1000) 500 5).bounds = some (480, 720)
      ∧ (vmemcache_visual_draw ⟨80, 24⟩ ⟨4096, 4000⟩ (4096 + 1000 + 500) 300 6).bounds
        = some (720, 864)
      ∧ (vmemcache_visual_draw ⟨80, 24⟩ ⟨4096, 4000⟩ (4096 + 1000) 500 5).cells
          ++ (vmemcache_visual_draw ⟨80, 24⟩ ⟨4096, 4000⟩ (4096 + 1000 + 500) 300 6).cells
        = (vmemcache_visual_draw ⟨80, 24⟩ ⟨4096, 4000⟩ (4096 + 1000) (500 + 300) 7).cells :=
  ⟨(vmemcache_visual_draw_adjacent ⟨80, 24⟩ 4096 4000 1000 500 300 5 6 7 (by decide)
      (by decide)).1,
    (vmemcache_visual_draw_adjacent ⟨80, 24⟩ 4096 4000 1000 500 300 5 6 7 (by decide)
      (by decide)).2.1,
    ((vmemcache_visual_draw_adjacent ⟨80, 24⟩ 4096 4000 1000 500 300 5 6 7 (by decide)
      (by decide)).2.2.2 (by decide) (by decide)).2.2.1⟩

/-- C15. For every enabled surface with `sx, sy > 0`, arena size `S > 0` and request
with `offset + len ≤ S` whose product `(offset + len) * sx * sy` fits in 64 bits,
`vmemcache_visual_draw` computes `a1 ≤ a2 ≤ sx * sy`, and when it paints
(`a1 < a2`) the row and column it passes to `printf` satisfy `1 ≤ row ≤ sy` and
`1 ≤ column ≤ sx`. -/
theorem vmemcache_visual_draw_in_grid (s : Surface) (base S offset len id : Nat)
    (hsx : 0 < s.sx) (_hsy : 0 < s.sy) (hS : 0 < S) (hin : offset + len ≤ S)
    (hfit : (offset + len) * s.sx * s.sy < U64) :
    (vmemcache_visual_draw s ⟨base, S⟩ (base + offset) len id).bounds
        = some (offset * (s.sx * s.sy) / S, (offset + len) * (s.sx * s.sy) / S)
      ∧ offset * (s.sx * s.sy) / S ≤ (offset + len) * (s.sx * s.sy) / S
      ∧ (offset + len) * (s.sx * s.sy) / S ≤ s.sx * s.sy
      ∧ (offset * (s.sx * s.sy) / S < (offset + len) * (s.sx * s.sy) / S →
          ∃ p : PrintfArgs,
            vmemcache_visual_draw s ⟨base, S⟩ (base + offset) len id
                = .printed (offset * (s.sx * s.sy) / S) ((offset + len) * (s.sx * s.sy) / S) p
              ∧ 1 ≤ p.row ∧ p.row ≤ s.sy ∧ 1 ≤ p.col ∧ p.col ≤ s.sx) := by
  have hd := vmemcache_visual_draw_exact s base S offset len id hsx.ne' hS hfit
  have h12 : offset * (s.sx * s.sy) / S ≤ (offset + len) * (s.sx * s.sy) / S :=
    Nat.div_le_div_right (Nat.mul_le_mul_right _ (Nat.le_add_right _ _))
  have h2T : (offset + len) * (s.sx * s.sy) / S ≤ s.sx * s.sy := by
    calc (offset + len) * (s.sx * s.sy) / S
        ≤ S * (s.sx * s.sy) / S := Nat.div_le_div_right (Nat.mul_le_mul_right _ hin)
      _ = s.sx * s.sy := Nat.mul_div_cancel_left _ hS
  refine ⟨?_, h12, h2T, ?_⟩
  · rw [hd]; split <;> rfl
  · intro hlt
    rw [hd, if_neg (by omega)]
    refine ⟨_, rfl, ?_, ?_, ?_, ?_⟩
    · exact Nat.le_add_left _ _
    · have : offset * (s.sx * s.sy) / S / s.sx < s.sy :=
        Nat.div_lt_of_lt_mul (lt_of_lt_of_le hlt h2T)
      exact this
    · exact Nat.le_add_left _ _
    · exact Nat.mod_lt _ hsx

/-- Witness of C15: 80 x 24 cells, an arena of 4000 bytes, the last 500 bytes are
painted on the cells `[1680, 1920)`, from row 22, column 1. -/
theorem vmemcache_visual_draw_in_grid_witness :
    (vmemcache_visual_draw ⟨80, 24⟩ ⟨4096, 4000⟩ (4096 + 3500) 500 5).bounds
        = some (3500 * (80 * 24) / 4000, (3500 + 500) * (80 * 24) / 4000)
      ∧ (3500 + 500) * (80 * 24) / 4000 ≤ 80 * 24 :=
  ⟨(vmemcache_visual_draw_in_grid ⟨80, 24⟩ 4096 4000 3500 500 5 (by decide) (by decide)
      (by decide) (by decide) (by decide)).1,
    (vmemcache_visual_draw_in_grid ⟨80, 24⟩ 4096 4000 3500 500 5 (by decide) (by decide)
      (by decide) (by decide) (by decide)).2.2.1⟩

/-- Counterexample to C17 as stated: a terminal of 65535 x 65535 cells and an arena
of 2 bytes; the whole-arena request is worth `2 * 4294836225 / 2 = 4294836225` cells
and the products fit in 64 bits, but `(int)(a2 - a1)` is `-131071`, so only 131071
blanks are written. -/
theorem vmemcache_visual_draw_worth_truncated :
    2 ≤ 2 * (65535 * 65535) ∧ (0 + 2) * 65535 * 65535 < U64
      ∧ 2 * (65535 * 65535) / 2 = 4294836225
      ∧ vmemcache_visual_draw ⟨65535, 65535⟩ ⟨4096, 2⟩ (4096 + 0) 2 5
        = .printed 0 4294836225 ⟨1, 1, 22, -131071⟩
      ∧ (vmemcache_visual_draw ⟨65535, 65535⟩ ⟨4096, 2⟩ (4096 + 0) 2 5).output.count ' '
        = 131071
      ∧ ¬ (4294836225 ≤ 131071) := by
  have h : vmemcache_visual_draw ⟨65535, 65535⟩ ⟨4096, 2⟩ (4096 + 0) 2 5
      = .printed 0 4294836225 ⟨1, 1, 22, -131071⟩ := by decide
  refine ⟨by decide, by decide, by decide, h, ?_, by decide⟩
  rw [h]
  simp only [DrawOutcome.output, printf_draw_count_blank]
  rfl

/-- C17, amended. For every enabled surface, arena size `S > 0` and request with
`len * sx * sy ≥ S` whose product `(offset + len) * sx * sy` fits in 64 bits,
`vmemcache_visual_draw` computes `a2 > a1` with `a2 - a1 ≥ len * total / S`
(`total = sx * sy`), reaches the `printf` and writes a nonempty text; when the run
`a2 - a1` is below `2 ^ 31` the text holds `a2 - a1` blanks, at least
`len * total / S` of them. -/
theorem vmemcache_visual_draw_worth (s : Surface) (base S offset len id : Nat)
    (hsx : s.sx ≠ 0) (hS : 0 < S) (hfit : (offset + len) * s.sx * s.sy < U64)
    (hcell : S ≤ len * (s.sx * s.sy)) :
    offset * (s.sx * s.sy) / S < (offset + len) * (s.sx * s.sy) / S
      ∧ len * (s.sx * s.sy) / S
          ≤ (offset + len) * (s.sx * s.sy) / S - offset * (s.sx * s.sy) / S
      ∧ vmemcache_visual_draw s ⟨base, S⟩ (base + offset) len id
        = .printed (offset * (s.sx * s.sy) / S) ((offset + len) * (s.sx * s.sy) / S)
            ⟨offset * (s.sx * s.sy) / S / s.sx + 1, offset * (s.sx * s.sy) / S % s.sx + 1,
             if id = 0 then 0 else 17 + id % 239,
             int_of_size_t ((offset + len) * (s.sx * s.sy) / S - offset * (s.sx * s.sy) / S)⟩
      ∧ (vmemcache_visual_draw s ⟨base, S⟩ (base + offset) len id).output ≠ []
      ∧ ((offset + len) * (s.sx * s.sy) / S - offset * (s.sx * s.sy) / S < 2 ^ 31 →
          (vmemcache_visual_draw s ⟨base, S⟩ (base + offset) len id).output.count ' '
              = (offset + len) * (s.sx * s.sy) / S - offset * (s.sx * s.sy) / S
            ∧ len * (s.sx * s.sy) / S
              ≤ (vmemcache_visual_draw s ⟨base, S⟩ (base + offset) len id).output.count
                  ' ') := by
  have hd := vmemcache_visual_draw_exact s base S offset len id hsx hS hfit
  have hone : 1 ≤ len * (s.sx * s.sy) / S := (Nat.one_le_div_iff hS).2 hcell
  have hsum : offset * (s.sx * s.sy) / S + len * (s.sx * s.sy) / S
      ≤ (offset + len) * (s.sx * s.sy) / S := by
    rw [Nat.add_mul]
    exact Nat.add_div_le_add_div _ _ _
  have hlt : offset * (s.sx * s.sy) / S < (offset + len) * (s.sx * s.sy) / S := by omega
  have hge : len * (s.sx * s.sy) / S
      ≤ (offset + len) * (s.sx * s.sy) / S - offset * (s.sx * s.sy) / S := by omega
  rw [if_neg (by omega)] at hd
  refine ⟨hlt, hge, hd, ?_, ?_⟩
  · rw [hd]
    exact printf_draw_ne_nil _
  · intro hrun
    rw [hd]
    simp only [DrawOutcome.output, printf_draw_count_blank, int_of_size_t_small _ hrun,
      printf_pad_count_natCast]
    exact ⟨trivial, hge⟩

/-- Witness of C17, amended: 80 x 24 cells, an arena of 4000 bytes, the request at
offset 1000 of length 500 is worth 240 cells and 240 blanks are written. -/
theorem vmemcache_visual_draw_worth_witness :
    1000 * (80 * 24) / 4000 < (1000 + 500) * (80 * 24) / 4000
      ∧ (vmemcache_visual_draw ⟨80, 24⟩ ⟨4096, 4000⟩ (4096 + 1000) 500 5).output.count ' '
          = (1000 + 500) * (80 * 24) / 4000 - 1000 * (80 * 24) / 4000 :=
  ⟨(vmemcache_visual_draw_worth ⟨80, 24⟩ 4096 4000 1000 500 5 (by decide) (by decide)
      (by decide) (by decide)).1,
    ((vmemcache_visual_draw_worth ⟨80, 24⟩ 4096 4000 1000 500 5 (by decide) (by decide)
      (by decide) (by decide)).2.2.2.2 (by decide)).1⟩

/-! ### Sensitivity of the hash -/

/-- One FNV-1a step yields a 64-bit value. -/
theorem fnv1a_step_lt (id byte : Nat) : fnv1a_step id byte < 2 ^ 64 :=
  Nat.mod_lt _ (by decide)

/-- Multiplication by the odd constant `0x00000100000001b3` is injective on 64-bit
values. -/
theorem mul_prime_inj (a b : Nat) (ha : a < 2 ^ 64) (hb : b < 2 ^ 64)
    (h : a * 0x00000100000001b3 % 2 ^ 64 = b * 0x00000100000001b3 % 2 ^ 64) : a = b := by
  have hco : Nat.gcd (2 ^ 64) 0x00000100000001b3 = 1 := by decide
  have hmod : a % 2 ^ 64 = b % 2 ^ 64 := Nat.ModEq.cancel_right_of_coprime hco h
  rwa [Nat.mod_eq_of_lt ha, Nat.mod_eq_of_lt hb] at hmod

/-- For a fixed byte, one FNV-1a step is injective in the accumulator. -/
theorem fnv1a_step_inj_id (x y byte : Nat) (hx : x < 2 ^ 64) (hy : y < 2 ^ 64)
    (hb : byte < 256) (h : fnv1a_step x byte = fnv1a_step y byte) : x = y := by
  have hb64 : byte < 2 ^ 64 := lt_trans hb (by decide)
  have hxor := mul_prime_inj _ _ (Nat.xor_lt_two_pow hx hb64) (Nat.xor_lt_two_pow hy hb64) h
  exact Nat.xor_left_inj.1 hxor

/-- For a fixed accumulator, one FNV-1a step is injective in the byte. -/
theorem fnv1a_step_inj_byte (x b1 b2 : Nat) (hx : x < 2 ^ 64) (h1 : b1 < 256)
    (h2 : b2 < 256) (h : fnv1a_step x b1 = fnv1a_step x b2) : b1 = b2 := by
  have hxor := mul_prime_inj _ _ (Nat.xor_lt_two_pow hx (lt_trans h1 (by decide)))
    (Nat.xor_lt_two_pow hx (lt_trans h2 (by decide))) h
  exact Nat.xor_right_inj.1 hxor

/-- Two different accumulators stay different over a common run of bytes. -/
theorem foldl_fnv1a_step_ne_of_ne :
    ∀ (l1 l2 : List Nat) (x y : Nat), x < 2 ^ 64 → y < 2 ^ 64 → x ≠ y →
      l1.length = l2.length → (∀ b ∈ l1, b < 256) →
      (∀ j, l1.getD j 0 = l2.getD j 0) →
      l1.foldl fnv1a_step x ≠ l2.foldl fnv1a_step y := by
  intro l1
  induction l1 with
  | nil =>
    intro l2 x y _ _ hxy hlen _ _
    have : l2 = [] := List.length_eq_zero.1 hlen.symm
    subst this
    simpa using hxy
  | cons a l1 ih =>
    intro l2 x y hx hy hxy hlen hb hget
    cases l2 with
    | nil => simp at hlen
    | cons c l2 =>
      have hac : a = c := by simpa using hget 0
      subst hac
      have ha : a < 256 := hb a (List.mem_cons_self _ _)
      simp only [List.foldl_cons]
      refine ih l2 _ _ (fnv1a_step_lt _ _) (fnv1a_step_lt _ _) ?_ (by simpa using hlen)
        (fun b hmem => hb b (List.mem_cons_of_mem _ hmem)) ?_
      · intro h
        exact hxy (fnv1a_step_inj_id x y a hx hy ha h)
      · intro j
        simpa using hget (j + 1)

/-- Two keys of the same length that differ at exactly the position `i` fold to
different values from the same 64-bit start. -/
theorem foldl_fnv1a_step_ne_of_byte :
    ∀ (l1 l2 : List Nat) (i x : Nat), x < 2 ^ 64 → l1.length = l2.length →
      (∀ b ∈ l1, b < 256) → (∀ b ∈ l2, b < 256) → i < l1.length →
      l1.getD i 0 ≠ l2.getD i 0 → (∀ j, j ≠ i → l1.getD j 0 = l2.getD j 0) →
      l1.foldl fnv1a_step x ≠ l2.foldl fnv1a_step x := by
  intro l1
  induction l1 with
  | nil => intro l2 i x _ _ _ _ hi; simp at hi
  | cons a l1 ih =>
    intro l2 i x hx hlen hb1 hb2 hi hne hrest
    cases l2 with
    | nil => simp at hlen
    | cons c l2 =>
      have ha : a < 256 := hb1 a (List.mem_cons_self _ _)
      have hc : c < 256 := hb2 c (List.mem_cons_self _ _)
      have hlen2 : l1.length = l2.length := by simpa using hlen
      simp only [List.foldl_cons]
      cases i with
      | zero =>
        have hac : a ≠ c := by simpa using hne
        refine foldl_fnv1a_step_ne_of_ne l1 l2 _ _ (fnv1a_step_lt _ _) (fnv1a_step_lt _ _) ?_
          hlen2 (fun b hmem => hb1 b (List.mem_cons_of_mem _ hmem)) ?_
        · intro h
          exact hac (fnv1a_step_inj_byte x a c hx ha hc h)
        · intro j
          simpa using hrest (j + 1) (Nat.succ_ne_zero j)
      | succ i =>
        have hac : a = c := by simpa using hrest 0 (Nat.succ_ne_zero i).symm
        subst hac
        refine ih l2 i _ (fnv1a_step_lt _ _) hlen2
          (fun b hmem => hb1 b (List.mem_cons_of_mem _ hmem))
          (fun b hmem => hb2 b (List.mem_cons_of_mem _ hmem)) (by simpa using hi)
          (by simpa using hne) ?_
        intro j hj
        simpa using hrest (j + 1) (by omega)

/-- C16. For every two keys (byte sequences, `ksize` their length) of the same
length that differ at exactly one position `i`, `vmemcache_visual_id` returns two
different hashes. -/
theorem vmemcache_visual_id_separates (k1 k2 : List Nat) (i : Nat)
    (hlen : k1.length = k2.length) (hb1 : ∀ b ∈ k1, b < 256) (hb2 : ∀ b ∈ k2, b < 256)
    (hi : i < k1.length) (hne : k1.getD i 0 ≠ k2.getD i 0)
    (hrest : ∀ j, j ≠ i → k1.getD j 0 = k2.getD j 0) :
    vmemcache_visual_id ⟨k1.length, k1⟩ ≠ vmemcache_visual_id ⟨k2.length, k2⟩ := by
  unfold vmemcache_visual_id
  rw [vmemcache_visual_id_loop_eq ⟨k1.length, k1⟩ rfl hb1 (k1.length - 0) 0 _ rfl,
    vmemcache_visual_id_loop_eq ⟨k2.length, k2⟩ rfl hb2 (k2.length - 0) 0 _ rfl]
  simp only [List.drop_zero]
  exact foldl_fnv1a_step_ne_of_byte k1 k2 i _ (by decide) hlen hb1 hb2 hi hne hrest

/-- Witness of C16: the keys `"cat"` and `"cbt"` differ at position 1 only. -/
theorem vmemcache_visual_id_separates_witness :
    vmemcache_visual_id ⟨3, [99, 97, 116]⟩ ≠ vmemcache_visual_id ⟨3, [99, 98, 116]⟩ :=
  vmemcache_visual_id_separates [99, 97, 116] [99, 98, 116] 1 rfl (by decide) (by decide)
    (by decide) (by decide)
    (fun j hj => by
      rcases j with _ | _ | j
      · rfl
      · exact absurd rfl hj
      · rcases j with _ | j <;> rfl)

end Vmemcache
